import Mathlib

/-!
# Dependency-graph traversal queries (`depsgraph_query_foreach.cc`)

A shallow embedding of the three query entry points of the dependency graph
(`deg_foreach_dependent_ID`, `deg_foreach_ancestor_ID`, `deg_foreach_id`) and of
the marker reset `deg_foreach_clear_flags`.

Memory is modelled field-record-wise: a pointer to a node is an address
(`Nat`), and the graph carries one total map per node type from addresses to
node records.  The nodes that belong to a graph are the ones listed in
`operations` and `id_nodes`.  The callback is opaque to the traversal, so a
call of it is recorded by appending its argument to the log `calls`.

The nested loops `while (!queue.empty()) { ... for (;;) { ... } }` are embedded
as a step function on a traversal state: `op_node = none` is the head of the
outer loop, `op_node = some a` is the head of the inner loop with the local
variable `op_node` pointing at `a`.
-/

namespace DEG

/-! ## Data model -/

/-- Modelled from the spec: the class tag answered by `get_class()` on a node
(declared in `intern/node/deg_node.h`); the traversal only distinguishes
`OPERATION` from the rest. -/
inductive NodeClass
  | GENERIC
  | COMPONENT
  | OPERATION
  deriving DecidableEq, Repr

/-- Modelled from the spec: a generic node pointer (`Node *`), i.e. the address
of the pointee together with the class of the pointee. -/
structure NodePtr where
  cls : NodeClass
  addr : Nat
  deriving DecidableEq, Repr

/-- Modelled from the spec: a directed edge with generically typed endpoints
(declared in `intern/depsgraph.h`). -/
structure Relation where
  «from» : NodePtr
  «to» : NodePtr
  deriving DecidableEq, Repr

/-- Modelled from the spec: the fields of an operation node read or written by
the traversal (declared in `intern/node/deg_node_operation.h`). `owner` is the
address of the owning component node. -/
structure OperationNode where
  owner : Nat
  outlinks : List Relation
  inlinks : List Relation
  scheduled : Bool
  deriving DecidableEq, Repr

/-- Modelled from the spec: a component node (declared in
`intern/node/deg_node_component.h`). `owner` is the address of the owning
entity node, `operations` the addresses of its operation nodes in order. -/
structure ComponentNode where
  owner : Nat
  operations : List Nat
  deriving DecidableEq, Repr

/-- Modelled from the spec: an entity node (declared in
`intern/node/deg_node_id.h`). `id_orig` is the canonical identity, `components`
lists the values of the component hash in its iteration order, `custom_flags`
holds the per-traversal marker bits. -/
structure IDNode where
  id_orig : Nat
  components : List Nat
  custom_flags : Nat
  deriving DecidableEq, Repr

/-- Modelled from the spec: the graph (declared in `intern/depsgraph.h`): the
node memory, the flat collections `operations` and `id_nodes`, and the hash
from identities to entity nodes. -/
structure Depsgraph where
  op_mem : Nat → OperationNode
  comp_mem : Nat → ComponentNode
  id_mem : Nat → IDNode
  operations : List Nat
  id_nodes : List Nat
  id_hash : List (Nat × Nat)

/-- Modelled from the spec: the lookup from an entity identity to its entity
node (defined in `intern/depsgraph.cc`); `none` is the null pointer. -/
def find_id_node (graph : Depsgraph) (id : Nat) : Option Nat :=
  graph.id_hash.lookup id

/-- The write `op_node->scheduled = v`. -/
def Depsgraph.set_scheduled (graph : Depsgraph) (op_node : Nat) (v : Bool) : Depsgraph :=
  { graph with
    op_mem := fun a =>
      if a = op_node then { graph.op_mem a with scheduled := v } else graph.op_mem a }

/-- The write `id_node->custom_flags = v`. -/
def Depsgraph.set_custom_flags (graph : Depsgraph) (id_node : Nat) (v : Nat) : Depsgraph :=
  { graph with
    id_mem := fun n =>
      if n = id_node then { graph.id_mem n with custom_flags := v } else graph.id_mem n }

/-! ## The traversal -/

/-- The double-ended worklist; the head of the list is the front. -/
abbrev TraversalQueue := List Nat

def DEG_NODE_VISITED : Nat := 1 <<< 0

/-- Lines 56-64. -/
def deg_foreach_clear_flags (graph : Depsgraph) : Depsgraph :=
  let graph1 := graph.operations.foldl (fun g op_node => g.set_scheduled op_node false) graph
  graph1.id_nodes.foldl (fun g id_node => g.set_custom_flags id_node 0) graph1

/-- Where a run of a traversal stands: still inside the loops, returned to the
caller, or stopped at an undefined operation (a cast of a non-operation node
to an operation node). -/
inductive Status
  | running
  | returned
  | undefined
  deriving DecidableEq, Repr

/-- The state of one call: the graph with its markers, the local worklist, the
local variable `op_node` of the inner loop, and the log of callback calls
(oldest first). -/
structure Traversal where
  graph : Depsgraph
  queue : TraversalQueue
  op_node : Option Nat
  calls : List Nat
  status : Status

/-- Lines 84-87 (and 148-151): the operations of one component are pushed to the
back of the worklist and marked scheduled. -/
def schedule_component (operations : List Nat) (st : Depsgraph × TraversalQueue) :
    Depsgraph × TraversalQueue :=
  operations.foldl (fun st op_node => (st.1.set_scheduled op_node true, st.2 ++ [op_node])) st

/-- Lines 81-89 (and 145-153): seeding of the worklist from the components of
the start entity node. -/
def schedule_id_node (graph : Depsgraph) (target_id_node : Nat) : Depsgraph × TraversalQueue :=
  (graph.id_mem target_id_node).components.foldl
    (fun st comp_node => schedule_component (st.1.comp_mem comp_node).operations st)
    (graph, [])

/-- Lines 71-90 (and 135-154): the state at the first test of the outer loop,
for a start entity whose node was found. -/
def traversal_begin (graph : Depsgraph) (target_id_node : Nat) : Traversal :=
  let graph1 := deg_foreach_clear_flags graph
  let seeded := schedule_id_node graph1 target_id_node
  let graph2 := seeded.1.set_custom_flags target_id_node
    ((seeded.1.id_mem target_id_node).custom_flags ||| DEG_NODE_VISITED)
  { graph := graph2, queue := seeded.2, op_node := none, calls := [], status := Status.running }

/-- Lines 97-104 (and 161-168): the callback is called with the identity of the
owning entity unless that entity is already marked visited. -/
def visit_owner (t : Traversal) (op_node : Nat) : Traversal :=
  let comp_node := (t.graph.op_mem op_node).owner
  let id_node := (t.graph.comp_mem comp_node).owner
  if (t.graph.id_mem id_node).custom_flags &&& DEG_NODE_VISITED = 0 then
    { t with
      calls := t.calls ++ [(t.graph.id_mem id_node).id_orig]
      graph := t.graph.set_custom_flags id_node
        ((t.graph.id_mem id_node).custom_flags ||| DEG_NODE_VISITED) }
  else t

/-- Lines 117-123: the loop over the outgoing relations in the branching case.
The target of a relation is cast to an operation node without a check. -/
def dependent_schedule_all : List Relation → Traversal → Traversal
  | [], t => t
  | rel :: rels, t =>
    if rel.«to».cls = NodeClass.OPERATION then
      let to_node := rel.«to».addr
      if (t.graph.op_mem to_node).scheduled = false then
        dependent_schedule_all rels
          { t with queue := to_node :: t.queue, graph := t.graph.set_scheduled to_node true }
      else dependent_schedule_all rels t
    else { t with status := Status.undefined }

/-- Lines 92-127: one step of the loops of `deg_foreach_dependent_ID`: either
the test of the outer loop with the removal of the front of the worklist, or
one pass of the inner loop. -/
def dependent_step (t : Traversal) : Traversal :=
  match t.status with
  | Status.running =>
    match t.op_node with
    | none =>
      match t.queue with
      | [] => { t with status := Status.returned }
      | op_node :: rest => { t with queue := rest, op_node := some op_node }
    | some op_node =>
      let t1 := visit_owner t op_node
      match (t1.graph.op_mem op_node).outlinks with
      | [rel] =>
        if rel.«to».cls = NodeClass.OPERATION then
          let to_node := rel.«to».addr
          if (t1.graph.op_mem to_node).scheduled = false then
            { t1 with graph := t1.graph.set_scheduled to_node true, op_node := some to_node }
          else { t1 with op_node := none }
        else { t1 with status := Status.undefined }
      | outlinks => { dependent_schedule_all outlinks t1 with op_node := none }
  | _ => t

/-- Lines 184-193: the loop over the incoming relations in the branching case;
a relation whose source is not an operation node is passed over. -/
def ancestor_schedule_all : List Relation → Traversal → Traversal
  | [], t => t
  | rel :: rels, t =>
    if rel.«from».cls = NodeClass.OPERATION then
      let from_node := rel.«from».addr
      if (t.graph.op_mem from_node).scheduled = false then
        ancestor_schedule_all rels
          { t with queue := from_node :: t.queue, graph := t.graph.set_scheduled from_node true }
      else ancestor_schedule_all rels t
    else ancestor_schedule_all rels t

/-- Lines 156-197: one step of the loops of `deg_foreach_ancestor_ID`. When the
only incoming relation comes from a node that is not an operation, the pass
ends without a break and without a new `op_node`. -/
def ancestor_step (t : Traversal) : Traversal :=
  match t.status with
  | Status.running =>
    match t.op_node with
    | none =>
      match t.queue with
      | [] => { t with status := Status.returned }
      | op_node :: rest => { t with queue := rest, op_node := some op_node }
    | some op_node =>
      let t1 := visit_owner t op_node
      match (t1.graph.op_mem op_node).inlinks with
      | [rel] =>
        if rel.«from».cls = NodeClass.OPERATION then
          let from_node := rel.«from».addr
          if (t1.graph.op_mem from_node).scheduled = false then
            { t1 with graph := t1.graph.set_scheduled from_node true, op_node := some from_node }
          else { t1 with op_node := none }
        else t1
      | inlinks => { ancestor_schedule_all inlinks t1 with op_node := none }
  | _ => t

/-- Runs a step function `fuel` times. -/
def run (step : Traversal → Traversal) : Nat → Traversal → Traversal
  | 0, t => t
  | fuel + 1, t => run step fuel (step t)

/-- The state in which a call returns at once. -/
def returned_at_once (graph : Depsgraph) : Traversal :=
  { graph := graph, queue := [], op_node := none, calls := [], status := Status.returned }

/-- Lines 66-128, with the loops run for at most `fuel` steps. -/
def deg_foreach_dependent_ID (graph : Depsgraph) (id : Nat) (fuel : Nat) : Traversal :=
  match find_id_node graph id with
  | none => returned_at_once graph
  | some target_id_node => run dependent_step fuel (traversal_begin graph target_id_node)

/-- Lines 130-198, with the loops run for at most `fuel` steps. -/
def deg_foreach_ancestor_ID (graph : Depsgraph) (id : Nat) (fuel : Nat) : Traversal :=
  match find_id_node graph id with
  | none => returned_at_once graph
  | some target_id_node => run ancestor_step fuel (traversal_begin graph target_id_node)

/-- Lines 200-206: the callback is called once per entry of `id_nodes`; the
loop body reads `id_orig` and writes nothing. -/
def deg_foreach_id (depsgraph : Depsgraph) : Traversal :=
  depsgraph.id_nodes.foldl
    (fun t id_node => { t with calls := t.calls ++ [(t.graph.id_mem id_node).id_orig] })
    (returned_at_once depsgraph)

/-! ## Example graphs -/

def op (a : Nat) : NodePtr := ⟨NodeClass.OPERATION, a⟩

/-- Entities A, B, C at addresses 0, 1, 2 with identities 10, 11, 12, one
component and one operation each (same addresses), relations A.op → B.op
→ C.op. -/
def chain : Depsgraph where
  op_mem := fun a =>
    match a with
    | 0 => ⟨0, [⟨op 0, op 1⟩], [], false⟩
    | 1 => ⟨1, [⟨op 1, op 2⟩], [⟨op 0, op 1⟩], true⟩
    | 2 => ⟨2, [], [⟨op 1, op 2⟩], false⟩
    | _ => ⟨0, [], [], false⟩
  comp_mem := fun c => ⟨c, [c]⟩
  id_mem := fun n => ⟨10 + n, [n], 0⟩
  operations := [0, 1, 2]
  id_nodes := [0, 1, 2]
  id_hash := [(10, 0), (11, 1), (12, 2)]

/-- Entities A, B, C, D at addresses 0..3 with identities 10..13, one component
and one operation each (same addresses), relations A → B, A → C, B → D,
C → D. -/
def diamond : Depsgraph where
  op_mem := fun a =>
    match a with
    | 0 => ⟨0, [⟨op 0, op 1⟩, ⟨op 0, op 2⟩], [], false⟩
    | 1 => ⟨1, [⟨op 1, op 3⟩], [⟨op 0, op 1⟩], false⟩
    | 2 => ⟨2, [⟨op 2, op 3⟩], [⟨op 0, op 2⟩], false⟩
    | 3 => ⟨3, [], [⟨op 1, op 3⟩, ⟨op 2, op 3⟩], false⟩
    | _ => ⟨0, [], [], false⟩
  comp_mem := fun c => ⟨c, [c]⟩
  id_mem := fun n => ⟨10 + n, [n], 0⟩
  operations := [0, 1, 2, 3]
  id_nodes := [0, 1, 2, 3]
  id_hash := [(10, 0), (11, 1), (12, 2), (13, 3)]

/-- Entities A, B at addresses 0, 1 with identities 10, 11, one component and
one operation each, relations A.op → B.op and B.op → A.op (a cycle back to the
start entity). -/
def cycle : Depsgraph where
  op_mem := fun a =>
    match a with
    | 0 => ⟨0, [⟨op 0, op 1⟩], [⟨op 1, op 0⟩], false⟩
    | 1 => ⟨1, [⟨op 1, op 0⟩], [⟨op 0, op 1⟩], false⟩
    | _ => ⟨0, [], [], false⟩
  comp_mem := fun c => ⟨c, [c]⟩
  id_mem := fun n => ⟨10 + n, [n], 0⟩
  operations := [0, 1]
  id_nodes := [0, 1]
  id_hash := [(10, 0), (11, 1)]

/-- One entity A at address 0 with identity 10 and one operation, whose only
incoming relation comes from a node that is not an operation (a time
source at address 7). -/
def timed : Depsgraph where
  op_mem := fun _ => ⟨0, [], [⟨⟨NodeClass.GENERIC, 7⟩, op 0⟩], false⟩
  comp_mem := fun _ => ⟨0, [0]⟩
  id_mem := fun _ => ⟨10, [0], 0⟩
  operations := [0]
  id_nodes := [0]
  id_hash := [(10, 0)]

/-- Entity A at address 0 (identity 10) with one component holding the
operations 0 and 1; entities B and C at addresses 1 and 2 (identities 11, 12)
with the operations 2 and 3. The operation 0 has three outgoing relations, to
B.op, to C.op and to B.op again; the operation 1 has none. -/
def fan : Depsgraph where
  op_mem := fun a =>
    match a with
    | 0 => ⟨0, [⟨op 0, op 2⟩, ⟨op 0, op 3⟩, ⟨op 0, op 2⟩], [], false⟩
    | 1 => ⟨0, [], [], false⟩
    | 2 => ⟨1, [], [⟨op 0, op 2⟩, ⟨op 0, op 2⟩], false⟩
    | 3 => ⟨2, [], [⟨op 0, op 3⟩], false⟩
    | _ => ⟨0, [], [], false⟩
  comp_mem := fun c =>
    match c with
    | 0 => ⟨0, [0, 1]⟩
    | 1 => ⟨1, [2]⟩
    | 2 => ⟨2, [3]⟩
    | _ => ⟨0, []⟩
  id_mem := fun n => ⟨10 + n, [n], 0⟩
  operations := [0, 1, 2, 3]
  id_nodes := [0, 1, 2]
  id_hash := [(10, 0), (11, 1), (12, 2)]

/-! ## Views of the graph and well-formedness -/

/-- The marker `scheduled` of the operation node at `a` is set. -/
def Depsgraph.sched (g : Depsgraph) (a : Nat) : Prop :=
  (g.op_mem a).scheduled = true

/-- The marker bit `DEG_NODE_VISITED` of the entity node at `n` is set. -/
def Depsgraph.visited (g : Depsgraph) (n : Nat) : Prop :=
  ¬ ((g.id_mem n).custom_flags &&& DEG_NODE_VISITED = 0)

/-- The entity node reached from an operation node through its owner pointers
(`op_node->owner->owner`). -/
def Depsgraph.owner_id (g : Depsgraph) (a : Nat) : Nat :=
  (g.comp_mem (g.op_mem a).owner).owner

/-- The operation node `a` is listed in a component of the entity node `n`. -/
def Owned (g : Depsgraph) (n a : Nat) : Prop :=
  ∃ c ∈ (g.id_mem n).components, a ∈ (g.comp_mem c).operations

/-- An outgoing relation of `a` targets the operation node `b`. -/
def out_edge (g : Depsgraph) (a b : Nat) : Prop :=
  ∃ rel ∈ (g.op_mem a).outlinks, rel.«to» = ⟨NodeClass.OPERATION, b⟩

/-- An incoming relation of `a` comes from the operation node `b`. -/
def in_edge (g : Depsgraph) (a b : Nat) : Prop :=
  ∃ rel ∈ (g.op_mem a).inlinks, rel.«from» = ⟨NodeClass.OPERATION, b⟩

/-- Two graph states differ at most in the markers `scheduled` and
`custom_flags`. -/
structure SameTopology (g g' : Depsgraph) : Prop where
  op_owner : ∀ a, (g'.op_mem a).owner = (g.op_mem a).owner
  op_outlinks : ∀ a, (g'.op_mem a).outlinks = (g.op_mem a).outlinks
  op_inlinks : ∀ a, (g'.op_mem a).inlinks = (g.op_mem a).inlinks
  comp_mem : g'.comp_mem = g.comp_mem
  id_orig : ∀ n, (g'.id_mem n).id_orig = (g.id_mem n).id_orig
  components : ∀ n, (g'.id_mem n).components = (g.id_mem n).components
  operations : g'.operations = g.operations
  id_nodes : g'.id_nodes = g.id_nodes
  id_hash : g'.id_hash = g.id_hash

/-- Well-formed graphs: the ownership pointers and the ownership lists
describe the same tree, without repetitions; `operations` and `id_nodes` list
all nodes; every outgoing relation targets a listed operation node and every
incoming relation that comes from an operation node comes from a listed one;
distinct entity nodes carry distinct identities; the identity hash answers
with the listed node that carries the identity. -/
def WellFormed (g : Depsgraph) : Prop :=
  (∀ n ∈ g.id_nodes, ∀ c ∈ (g.id_mem n).components,
    (g.comp_mem c).owner = n ∧
    ∀ a ∈ (g.comp_mem c).operations, (g.op_mem a).owner = c ∧ a ∈ g.operations) ∧
  (∀ a ∈ g.operations,
    a ∈ (g.comp_mem (g.op_mem a).owner).operations ∧
    (g.op_mem a).owner ∈ (g.id_mem (g.owner_id a)).components ∧
    g.owner_id a ∈ g.id_nodes) ∧
  (∀ a ∈ g.operations, ∀ rel ∈ (g.op_mem a).outlinks,
    rel.«to».cls = NodeClass.OPERATION ∧ rel.«to».addr ∈ g.operations) ∧
  (∀ a ∈ g.operations, ∀ rel ∈ (g.op_mem a).inlinks,
    rel.«from».cls = NodeClass.OPERATION → rel.«from».addr ∈ g.operations) ∧
  (∀ n ∈ g.id_nodes, ∀ m ∈ g.id_nodes,
    (g.id_mem n).id_orig = (g.id_mem m).id_orig → n = m) ∧
  (∀ p ∈ g.id_hash, p.2 ∈ g.id_nodes ∧ (g.id_mem p.2).id_orig = p.1) ∧
  g.operations.Nodup ∧ g.id_nodes.Nodup ∧
  (∀ n ∈ g.id_nodes, (g.id_mem n).components.Nodup ∧
    ∀ c ∈ (g.id_mem n).components, (g.comp_mem c).operations.Nodup)

instance (g : Depsgraph) : Decidable (WellFormed g) := by
  unfold WellFormed
  infer_instance

/-! ## The skeleton shared by the two directional queries

The two step functions above are instances of one skeleton; the properties of
the traversals are proved once, on the skeleton. -/

inductive Direction
  | forward
  | backward
  deriving DecidableEq, Repr

/-- What following a relation yields: an operation node, a node that is passed
over, or an unchecked cast of a node that is not an operation. -/
inductive Target
  | operation (addr : Nat)
  | not_operation
  | invalid
  deriving DecidableEq, Repr

def Direction.links : Direction → OperationNode → List Relation
  | Direction.forward, node => node.outlinks
  | Direction.backward, node => node.inlinks

def Direction.follow : Direction → Relation → Target
  | Direction.forward, rel =>
    if rel.«to».cls = NodeClass.OPERATION then Target.operation rel.«to».addr
    else Target.invalid
  | Direction.backward, rel =>
    if rel.«from».cls = NodeClass.OPERATION then Target.operation rel.«from».addr
    else Target.not_operation

def schedule_all (d : Direction) : List Relation → Traversal → Traversal
  | [], t => t
  | rel :: rels, t =>
    match d.follow rel with
    | Target.operation b =>
      if (t.graph.op_mem b).scheduled = false then
        schedule_all d rels
          { t with queue := b :: t.queue, graph := t.graph.set_scheduled b true }
      else schedule_all d rels t
    | Target.not_operation => schedule_all d rels t
    | Target.invalid => { t with status := Status.undefined }

def traversal_step (d : Direction) (t : Traversal) : Traversal :=
  match t.status with
  | Status.running =>
    match t.op_node with
    | none =>
      match t.queue with
      | [] => { t with status := Status.returned }
      | op_node :: rest => { t with queue := rest, op_node := some op_node }
    | some op_node =>
      let t1 := visit_owner t op_node
      match d.links (t1.graph.op_mem op_node) with
      | [rel] =>
        match d.follow rel with
        | Target.operation b =>
          if (t1.graph.op_mem b).scheduled = false then
            { t1 with graph := t1.graph.set_scheduled b true, op_node := some b }
          else { t1 with op_node := none }
        | Target.not_operation => t1
        | Target.invalid => { t1 with status := Status.undefined }
      | links => { schedule_all d links t1 with op_node := none }
  | _ => t

/-- One pass of the inner loop of the skeleton with `op_node` at `a`. -/
def inner_pass (d : Direction) (t : Traversal) (a : Nat) : Traversal :=
  let t1 := visit_owner t a
  match d.links (t1.graph.op_mem a) with
  | [rel] =>
    match d.follow rel with
    | Target.operation b =>
      if (t1.graph.op_mem b).scheduled = false then
        { t1 with graph := t1.graph.set_scheduled b true, op_node := some b }
      else { t1 with op_node := none }
    | Target.not_operation => t1
    | Target.invalid => { t1 with status := Status.undefined }
  | links => { schedule_all d links t1 with op_node := none }

/-- The relation followed by direction `d`: a link of `a` leads to the
operation node `b`. -/
def Edge (d : Direction) (g : Depsgraph) (a b : Nat) : Prop :=
  ∃ rel ∈ d.links (g.op_mem a), d.follow rel = Target.operation b

/-- The operation node `a` is a seed of the query from the entity node `s` or
is reached from a seed along the followed relation. -/
def Reach (d : Direction) (g : Depsgraph) (s a : Nat) : Prop :=
  ∃ a0, Owned g s a0 ∧ Relation.ReflTransGen (Edge d g) a0 a

/-- The invariant of the loops of a directional query from the entity node `s`
of the graph `g`. -/
structure Inv (d : Direction) (g : Depsgraph) (s : Nat) (t : Traversal) : Prop where
  topo : SameTopology g t.graph
  start_visited : t.graph.visited s
  queue_reach : ∀ a ∈ t.queue, Reach d g s a
  cur_reach : ∀ a, t.op_node = some a → Reach d g s a
  sched_reach : ∀ a ∈ g.operations, t.graph.sched a → Reach d g s a
  seeds_sched : ∀ a, Owned g s a → t.graph.sched a
  processed : ∀ a ∈ g.operations, t.graph.sched a →
    a ∈ t.queue ∨ t.op_node = some a ∨
      (t.graph.visited (g.owner_id a) ∧ ∀ b, Edge d g a b → t.graph.sched b)
  calls_sound : ∀ e ∈ t.calls, ∃ a, Reach d g s a ∧ g.owner_id a ≠ s ∧
    (g.id_mem (g.owner_id a)).id_orig = e
  visited_calls : ∀ n ∈ g.id_nodes, t.graph.visited n →
    n = s ∨ (g.id_mem n).id_orig ∈ t.calls
  calls_visited : ∀ e ∈ t.calls, ∃ n ∈ g.id_nodes,
    (g.id_mem n).id_orig = e ∧ t.graph.visited n
  calls_nodup : t.calls.Nodup
  status_defined : t.status ≠ Status.undefined
  returned_empty : t.status = Status.returned → t.queue = [] ∧ t.op_node = none

/-- The number of listed operation nodes that are not scheduled. -/
def unscheduled (g : Depsgraph) : Nat :=
  (g.operations.filter (fun a => (g.op_mem a).scheduled = false)).length

/-- The quantity that decreases with every step of the forward traversal. -/
def work_left (t : Traversal) : Nat :=
  2 * (unscheduled t.graph + t.queue.length) + (if t.op_node = none then 0 else 1)

/-- The operations of the components of the entity node `s`, in the order of
the seeding loops. -/
def seeds (g : Depsgraph) (s : Nat) : List Nat :=
  (g.id_mem s).components.flatMap (fun c => (g.comp_mem c).operations)

/-- Two traversal states over the topology of `g` that agree on the locals, on
the log and on the markers of the listed nodes. -/
structure Sim (g : Depsgraph) (t t' : Traversal) : Prop where
  queue : t'.queue = t.queue
  op_node : t'.op_node = t.op_node
  calls : t'.calls = t.calls
  status : t'.status = t.status
  topo : SameTopology t.graph t'.graph
  sched : ∀ a ∈ g.operations, t'.graph.sched a ↔ t.graph.sched a
  visited : ∀ n ∈ g.id_nodes, t'.graph.visited n ↔ t.graph.visited n

/-- What is known of the log for every graph: the start entity node is marked
visited and every logged identity is the identity of another entity node. -/
structure StartInv (g : Depsgraph) (s : Nat) (t : Traversal) : Prop where
  topo : SameTopology g t.graph
  start_visited : t.graph.visited s
  calls_other : ∀ e ∈ t.calls, ∃ n, n ≠ s ∧ (g.id_mem n).id_orig = e

/-! ## The reversed graph -/

/-- The relation with its endpoints swapped. -/
def Relation.swap (rel : Relation) : Relation :=
  ⟨rel.«to», rel.«from»⟩

/-- The reversed graph: same entity, component and operation nodes, same
markers; the outlinks of an operation are its former inlinks, in the same
order, with the endpoints swapped (and the other way round). -/
def reversed (g : Depsgraph) : Depsgraph :=
  { g with
    op_mem := fun a =>
      { g.op_mem a with
        outlinks := (g.op_mem a).inlinks.map Relation.swap
        inlinks := (g.op_mem a).outlinks.map Relation.swap } }

/-- The traversal state with its graph reversed. -/
def mirror (t : Traversal) : Traversal :=
  { t with graph := reversed t.graph }

/-! ## The worklist -/

/-- The first occurrences of the elements of a list, in their order. -/
def first_occurrences : List Nat → List Nat
  | [] => []
  | x :: xs => x :: (first_occurrences xs).filter (fun y => decide (y ≠ x))

/-- The operation nodes that the relations lead to in direction `d`, in the
order of the relations. -/
def Direction.targets (d : Direction) (rels : List Relation) : List Nat :=
  rels.filterMap (fun rel =>
    match d.follow rel with
    | Target.operation b => some b
    | _ => none)

/-- The targets of the relations that are not scheduled in `g`, each once, in
the order of their first occurrence. -/
def fresh_targets (d : Direction) (g : Depsgraph) (rels : List Relation) : List Nat :=
  first_occurrences ((d.targets rels).filter (fun b => (g.op_mem b).scheduled = false))

/-- The operation nodes visited by the passes of the inner loop during the
first `fuel` steps from `t`, in the order of the passes. -/
def passes (step : Traversal → Traversal) : Nat → Traversal → List Nat
  | 0, _ => []
  | fuel + 1, t =>
    match t.status, t.op_node with
    | Status.running, some a => a :: passes step fuel (step t)
    | _, _ => passes step fuel (step t)

/-- The operation nodes already visited (`seen`), the one being visited and the
ones waiting in the worklist, in this order. -/
def known (seen : List Nat) (t : Traversal) : List Nat :=
  seen ++ (t.op_node.toList ++ t.queue)

/-- The invariant on visits: no operation node is known twice, and every known
operation node is scheduled and listed. -/
structure Visits (g : Depsgraph) (seen : List Nat) (t : Traversal) : Prop where
  nodup : (known seen t).Nodup
  sched : ∀ a ∈ known seen t, t.graph.sched a
  listed : ∀ a ∈ known seen t, a ∈ g.operations

/-! ## The variant without the fast path -/

/-- The loops of `deg_foreach_dependent_ID` without the single-relation fast
path: an operation with exactly one outgoing relation is handled like any
other, its target, when not scheduled, is marked scheduled and pushed to the
front of the worklist, then the inner loop is left. -/
def dependent_step_no_fast_path (t : Traversal) : Traversal :=
  match t.status with
  | Status.running =>
    match t.op_node with
    | none =>
      match t.queue with
      | [] => { t with status := Status.returned }
      | op_node :: rest => { t with queue := rest, op_node := some op_node }
    | some op_node =>
      let t1 := visit_owner t op_node
      { dependent_schedule_all (t1.graph.op_mem op_node).outlinks t1 with op_node := none }
  | _ => t

/-- The forward query with the loops of `dependent_step_no_fast_path`, run for
at most `fuel` steps. -/
def deg_foreach_dependent_ID_no_fast_path (graph : Depsgraph) (id : Nat) (fuel : Nat) :
    Traversal :=
  match find_id_node graph id with
  | none => returned_at_once graph
  | some target_id_node =>
    run dependent_step_no_fast_path fuel (traversal_begin graph target_id_node)

/-! ## Theorems -/

/-! ### Memory writes -/

@[simp] theorem set_scheduled_op_mem (g : Depsgraph) (a : Nat) (v : Bool) (b : Nat) :
    (g.set_scheduled a v).op_mem b =
      if b = a then { g.op_mem b with scheduled := v } else g.op_mem b := rfl

@[simp] theorem set_scheduled_comp_mem (g : Depsgraph) (a : Nat) (v : Bool) :
    (g.set_scheduled a v).comp_mem = g.comp_mem := rfl

@[simp] theorem set_scheduled_id_mem (g : Depsgraph) (a : Nat) (v : Bool) :
    (g.set_scheduled a v).id_mem = g.id_mem := rfl

@[simp] theorem set_scheduled_operations (g : Depsgraph) (a : Nat) (v : Bool) :
    (g.set_scheduled a v).operations = g.operations := rfl

@[simp] theorem set_scheduled_id_nodes (g : Depsgraph) (a : Nat) (v : Bool) :
    (g.set_scheduled a v).id_nodes = g.id_nodes := rfl

@[simp] theorem set_scheduled_id_hash (g : Depsgraph) (a : Nat) (v : Bool) :
    (g.set_scheduled a v).id_hash = g.id_hash := rfl

@[simp] theorem set_custom_flags_id_mem (g : Depsgraph) (n v m : Nat) :
    (g.set_custom_flags n v).id_mem m =
      if m = n then { g.id_mem m with custom_flags := v } else g.id_mem m := rfl

@[simp] theorem set_custom_flags_op_mem (g : Depsgraph) (n v : Nat) :
    (g.set_custom_flags n v).op_mem = g.op_mem := rfl

@[simp] theorem set_custom_flags_comp_mem (g : Depsgraph) (n v : Nat) :
    (g.set_custom_flags n v).comp_mem = g.comp_mem := rfl

@[simp] theorem set_custom_flags_operations (g : Depsgraph) (n v : Nat) :
    (g.set_custom_flags n v).operations = g.operations := rfl

@[simp] theorem set_custom_flags_id_nodes (g : Depsgraph) (n v : Nat) :
    (g.set_custom_flags n v).id_nodes = g.id_nodes := rfl

@[simp] theorem set_custom_flags_id_hash (g : Depsgraph) (n v : Nat) :
    (g.set_custom_flags n v).id_hash = g.id_hash := rfl

theorem SameTopology.refl (g : Depsgraph) : SameTopology g g :=
  ⟨fun _ => rfl, fun _ => rfl, fun _ => rfl, rfl, fun _ => rfl, fun _ => rfl, rfl, rfl, rfl⟩

theorem SameTopology.trans {g1 g2 g3 : Depsgraph} (h : SameTopology g1 g2)
    (h' : SameTopology g2 g3) : SameTopology g1 g3 where
  op_owner a := (h'.op_owner a).trans (h.op_owner a)
  op_outlinks a := (h'.op_outlinks a).trans (h.op_outlinks a)
  op_inlinks a := (h'.op_inlinks a).trans (h.op_inlinks a)
  comp_mem := h'.comp_mem.trans h.comp_mem
  id_orig n := (h'.id_orig n).trans (h.id_orig n)
  components n := (h'.components n).trans (h.components n)
  operations := h'.operations.trans h.operations
  id_nodes := h'.id_nodes.trans h.id_nodes
  id_hash := h'.id_hash.trans h.id_hash

theorem SameTopology.symm {g1 g2 : Depsgraph} (h : SameTopology g1 g2) :
    SameTopology g2 g1 where
  op_owner a := (h.op_owner a).symm
  op_outlinks a := (h.op_outlinks a).symm
  op_inlinks a := (h.op_inlinks a).symm
  comp_mem := h.comp_mem.symm
  id_orig n := (h.id_orig n).symm
  components n := (h.components n).symm
  operations := h.operations.symm
  id_nodes := h.id_nodes.symm
  id_hash := h.id_hash.symm

theorem sameTopology_set_scheduled (g : Depsgraph) (a : Nat) (v : Bool) :
    SameTopology g (g.set_scheduled a v) := by
  refine ⟨?_, ?_, ?_, rfl, fun _ => rfl, fun _ => rfl, rfl, rfl, rfl⟩ <;>
    intro b <;> simp only [set_scheduled_op_mem] <;> split <;> rfl

theorem sameTopology_set_custom_flags (g : Depsgraph) (n v : Nat) :
    SameTopology g (g.set_custom_flags n v) := by
  refine ⟨fun _ => rfl, fun _ => rfl, fun _ => rfl, rfl, ?_, ?_, rfl, rfl, rfl⟩ <;>
    intro b <;> simp only [set_custom_flags_id_mem] <;> split <;> rfl

theorem DEG_NODE_VISITED_eq : DEG_NODE_VISITED = 1 := rfl

theorem or_visited_ne_zero (x : Nat) : ¬ ((x ||| DEG_NODE_VISITED) &&& DEG_NODE_VISITED = 0) := by
  simp [DEG_NODE_VISITED_eq, Nat.and_one_is_mod]

theorem dependent_schedule_all_eq (rels : List Relation) (t : Traversal) :
    dependent_schedule_all rels t = schedule_all Direction.forward rels t := by
  induction rels generalizing t with
  | nil => rfl
  | cons rel rels ih =>
    simp only [dependent_schedule_all, schedule_all, Direction.follow]
    by_cases h : rel.«to».cls = NodeClass.OPERATION
    · by_cases h' : (t.graph.op_mem rel.«to».addr).scheduled = false <;> simp [h, h', ih]
    · simp [h]

theorem ancestor_schedule_all_eq (rels : List Relation) (t : Traversal) :
    ancestor_schedule_all rels t = schedule_all Direction.backward rels t := by
  induction rels generalizing t with
  | nil => rfl
  | cons rel rels ih =>
    simp only [ancestor_schedule_all, schedule_all, Direction.follow]
    by_cases h : rel.«from».cls = NodeClass.OPERATION
    · by_cases h' : (t.graph.op_mem rel.«from».addr).scheduled = false <;> simp [h, h', ih]
    · simp [h, ih]

theorem dependent_step_eq (t : Traversal) :
    dependent_step t = traversal_step Direction.forward t := by
  unfold dependent_step traversal_step
  cases t.status <;> try rfl
  cases t.op_node with
  | none => rfl
  | some a =>
    simp only [Direction.links]
    split
    · next rel hl =>
      simp only [Direction.follow]
      by_cases h : rel.«to».cls = NodeClass.OPERATION <;> simp [h]
    · rw [dependent_schedule_all_eq]

theorem ancestor_step_eq (t : Traversal) :
    ancestor_step t = traversal_step Direction.backward t := by
  unfold ancestor_step traversal_step
  cases t.status <;> try rfl
  cases t.op_node with
  | none => rfl
  | some a =>
    simp only [Direction.links]
    split
    · next rel hl =>
      simp only [Direction.follow]
      by_cases h : rel.«from».cls = NodeClass.OPERATION <;> simp [h]
    · rw [ancestor_schedule_all_eq]

/-! ### Views under marker writes -/

theorem SameTopology.owner_id {g g' : Depsgraph} (h : SameTopology g g') (a : Nat) :
    g'.owner_id a = g.owner_id a := by
  simp only [Depsgraph.owner_id, h.op_owner, h.comp_mem]

theorem SameTopology.links {g g' : Depsgraph} (h : SameTopology g g') (d : Direction)
    (a : Nat) : d.links (g'.op_mem a) = d.links (g.op_mem a) := by
  cases d
  · exact h.op_outlinks a
  · exact h.op_inlinks a

theorem sched_set_scheduled (g : Depsgraph) (b x : Nat) :
    (g.set_scheduled b true).sched x ↔ x = b ∨ g.sched x := by
  simp only [Depsgraph.sched, set_scheduled_op_mem]
  by_cases h : x = b <;> simp [h]

theorem visited_set_scheduled (g : Depsgraph) (b : Nat) (v : Bool) (n : Nat) :
    (g.set_scheduled b v).visited n ↔ g.visited n := Iff.rfl

theorem sched_set_custom_flags (g : Depsgraph) (n v x : Nat) :
    (g.set_custom_flags n v).sched x ↔ g.sched x := Iff.rfl

theorem visited_set_visited (g : Depsgraph) (n m : Nat) :
    (g.set_custom_flags n ((g.id_mem n).custom_flags ||| DEG_NODE_VISITED)).visited m ↔
      m = n ∨ g.visited m := by
  simp only [Depsgraph.visited, set_custom_flags_id_mem]
  by_cases h : m = n
  · subst h
    simpa using or_visited_ne_zero _
  · simp [h]

/-! ### The report of the owning entity -/

theorem visit_owner_queue (t : Traversal) (a : Nat) : (visit_owner t a).queue = t.queue := by
  unfold visit_owner
  dsimp only
  split <;> rfl

theorem visit_owner_op_node (t : Traversal) (a : Nat) :
    (visit_owner t a).op_node = t.op_node := by
  unfold visit_owner
  dsimp only
  split <;> rfl

theorem visit_owner_status (t : Traversal) (a : Nat) :
    (visit_owner t a).status = t.status := by
  unfold visit_owner
  dsimp only
  split <;> rfl

theorem visit_owner_op_mem (t : Traversal) (a : Nat) :
    (visit_owner t a).graph.op_mem = t.graph.op_mem := by
  unfold visit_owner
  dsimp only
  split <;> rfl

theorem visit_owner_topo (t : Traversal) (a : Nat) :
    SameTopology t.graph (visit_owner t a).graph := by
  unfold visit_owner
  dsimp only
  split
  · exact sameTopology_set_custom_flags _ _ _
  · exact SameTopology.refl _

theorem visit_owner_sched (t : Traversal) (a x : Nat) :
    (visit_owner t a).graph.sched x ↔ t.graph.sched x := by
  simp only [Depsgraph.sched, visit_owner_op_mem]

theorem visit_owner_visited (t : Traversal) (a n : Nat) :
    (visit_owner t a).graph.visited n ↔ n = t.graph.owner_id a ∨ t.graph.visited n := by
  unfold visit_owner
  dsimp only
  split
  · exact visited_set_visited _ _ _
  · next h =>
    constructor
    · exact Or.inr
    · rintro (rfl | h')
      · exact h
      · exact h'

theorem visit_owner_calls_of_visited (t : Traversal) (a : Nat)
    (h : t.graph.visited (t.graph.owner_id a)) : (visit_owner t a).calls = t.calls := by
  unfold visit_owner
  dsimp only
  split
  · next h' => exact absurd h' h
  · rfl

theorem visit_owner_calls_of_not_visited (t : Traversal) (a : Nat)
    (h : ¬ t.graph.visited (t.graph.owner_id a)) :
    (visit_owner t a).calls = t.calls ++ [(t.graph.id_mem (t.graph.owner_id a)).id_orig] := by
  unfold visit_owner
  dsimp only
  split
  · rfl
  · next h' => exact absurd h' h

/-! ### The branching loop -/

theorem schedule_all_frame (d : Direction) (rels : List Relation) (t : Traversal) :
    (schedule_all d rels t).calls = t.calls ∧
    (schedule_all d rels t).op_node = t.op_node ∧
    (schedule_all d rels t).graph.id_mem = t.graph.id_mem ∧
    SameTopology t.graph (schedule_all d rels t).graph ∧
    (∀ x, t.graph.sched x → (schedule_all d rels t).graph.sched x) := by
  induction rels generalizing t with
  | nil => exact ⟨rfl, rfl, rfl, SameTopology.refl _, fun _ h => h⟩
  | cons rel rels ih =>
    unfold schedule_all
    split
    · next b hb =>
      split
      · obtain ⟨h1, h2, h3, h4, h5⟩ := ih
          { t with queue := b :: t.queue, graph := t.graph.set_scheduled b true }
        refine ⟨h1, h2, h3, (sameTopology_set_scheduled _ _ _).trans h4, fun x hx => h5 x ?_⟩
        exact (sched_set_scheduled _ _ _).mpr (Or.inr hx)
      · exact ih t
    · exact ih t
    · exact ⟨rfl, rfl, rfl, SameTopology.refl _, fun _ h => h⟩

theorem schedule_all_spec (d : Direction) (rels : List Relation) (t : Traversal)
    (hv : ∀ rel ∈ rels, d.follow rel ≠ Target.invalid) :
    (schedule_all d rels t).status = t.status ∧
    (∀ x, (schedule_all d rels t).graph.sched x ↔
      t.graph.sched x ∨ ∃ rel ∈ rels, d.follow rel = Target.operation x) ∧
    (∀ x, x ∈ (schedule_all d rels t).queue ↔
      x ∈ t.queue ∨ (¬ t.graph.sched x ∧ ∃ rel ∈ rels, d.follow rel = Target.operation x)) := by
  induction rels generalizing t with
  | nil => simp [schedule_all]
  | cons rel rels ih =>
    have hv' : ∀ r ∈ rels, d.follow r ≠ Target.invalid :=
      fun r hr => hv r (List.mem_cons_of_mem _ hr)
    unfold schedule_all
    split
    · next b hb =>
      split
      · next hs =>
        have hs' : ¬ t.graph.sched b := by simp [Depsgraph.sched, hs]
        obtain ⟨h1, h2, h3⟩ := ih
          { t with queue := b :: t.queue, graph := t.graph.set_scheduled b true } hv'
        refine ⟨h1, fun x => ?_, fun x => ?_⟩
        · rw [h2 x, sched_set_scheduled]
          constructor
          · rintro ((rfl | h) | ⟨r, hr, hx⟩)
            · exact Or.inr ⟨rel, List.mem_cons_self _ _, hb⟩
            · exact Or.inl h
            · exact Or.inr ⟨r, List.mem_cons_of_mem _ hr, hx⟩
          · rintro (h | ⟨r, hr, hx⟩)
            · exact Or.inl (Or.inr h)
            · rcases List.mem_cons.mp hr with rfl | hr
              · rw [hb] at hx
                cases hx
                exact Or.inl (Or.inl rfl)
              · exact Or.inr ⟨r, hr, hx⟩
        · rw [h3 x, sched_set_scheduled]
          simp only [List.mem_cons]
          constructor
          · rintro ((rfl | h) | ⟨hn, r, hr, hx⟩)
            · exact Or.inr ⟨hs', rel, Or.inl rfl, hb⟩
            · exact Or.inl h
            · exact Or.inr ⟨fun h => hn (Or.inr h), r, Or.inr hr, hx⟩
          · rintro (h | ⟨hn, r, hr, hx⟩)
            · exact Or.inl (Or.inr h)
            · by_cases hxb : x = b
              · exact Or.inl (Or.inl hxb)
              · rcases hr with rfl | hr
                · rw [hb] at hx
                  cases hx
                  exact absurd rfl hxb
                · refine Or.inr ⟨?_, r, hr, hx⟩
                  rintro (h | h)
                  · exact hxb h
                  · exact hn h
      · next hs =>
        have hs' : t.graph.sched b := by simpa [Depsgraph.sched] using hs
        obtain ⟨h1, h2, h3⟩ := ih t hv'
        refine ⟨h1, fun x => ?_, fun x => ?_⟩
        · rw [h2 x]
          constructor
          · rintro (h | ⟨r, hr, hx⟩)
            · exact Or.inl h
            · exact Or.inr ⟨r, List.mem_cons_of_mem _ hr, hx⟩
          · rintro (h | ⟨r, hr, hx⟩)
            · exact Or.inl h
            · rcases List.mem_cons.mp hr with rfl | hr
              · rw [hb] at hx
                cases hx
                exact Or.inl hs'
              · exact Or.inr ⟨r, hr, hx⟩
        · rw [h3 x]
          constructor
          · rintro (h | ⟨hn, r, hr, hx⟩)
            · exact Or.inl h
            · exact Or.inr ⟨hn, r, List.mem_cons_of_mem _ hr, hx⟩
          · rintro (h | ⟨hn, r, hr, hx⟩)
            · exact Or.inl h
            · rcases List.mem_cons.mp hr with rfl | hr
              · rw [hb] at hx
                cases hx
                exact absurd hs' hn
              · exact Or.inr ⟨hn, r, hr, hx⟩
    · next hb =>
      obtain ⟨h1, h2, h3⟩ := ih t hv'
      refine ⟨h1, fun x => ?_, fun x => ?_⟩
      · rw [h2 x]
        constructor
        · rintro (h | ⟨r, hr, hx⟩)
          · exact Or.inl h
          · exact Or.inr ⟨r, List.mem_cons_of_mem _ hr, hx⟩
        · rintro (h | ⟨r, hr, hx⟩)
          · exact Or.inl h
          · rcases List.mem_cons.mp hr with rfl | hr
            · rw [hb] at hx
              cases hx
            · exact Or.inr ⟨r, hr, hx⟩
      · rw [h3 x]
        constructor
        · rintro (h | ⟨hn, r, hr, hx⟩)
          · exact Or.inl h
          · exact Or.inr ⟨hn, r, List.mem_cons_of_mem _ hr, hx⟩
        · rintro (h | ⟨hn, r, hr, hx⟩)
          · exact Or.inl h
          · rcases List.mem_cons.mp hr with rfl | hr
            · rw [hb] at hx
              cases hx
            · exact Or.inr ⟨hn, r, hr, hx⟩
    · next hb => exact absurd hb (hv rel (List.mem_cons_self _ _))

/-! ### Consequences of well-formedness -/

theorem find_id_node_mem {g : Depsgraph} {id s : Nat} (h : find_id_node g id = some s) :
    (id, s) ∈ g.id_hash := by
  unfold find_id_node at h
  obtain ⟨l1, l2, hl, -⟩ := List.lookup_eq_some_iff.mp h
  rw [hl]
  simp

theorem WellFormed.find {g : Depsgraph} (hwf : WellFormed g) {id s : Nat}
    (h : find_id_node g id = some s) : s ∈ g.id_nodes ∧ (g.id_mem s).id_orig = id :=
  hwf.2.2.2.2.2.1 (id, s) (find_id_node_mem h)

theorem WellFormed.owned_listed {g : Depsgraph} (hwf : WellFormed g) {n a : Nat}
    (hn : n ∈ g.id_nodes) (h : Owned g n a) : a ∈ g.operations := by
  obtain ⟨c, hc, ha⟩ := h
  exact ((hwf.1 n hn c hc).2 a ha).2

theorem WellFormed.owned_owner {g : Depsgraph} (hwf : WellFormed g) {n a : Nat}
    (hn : n ∈ g.id_nodes) (h : Owned g n a) : g.owner_id a = n := by
  obtain ⟨c, hc, ha⟩ := h
  unfold Depsgraph.owner_id
  rw [((hwf.1 n hn c hc).2 a ha).1, (hwf.1 n hn c hc).1]

theorem WellFormed.owner_listed {g : Depsgraph} (hwf : WellFormed g) {a : Nat}
    (ha : a ∈ g.operations) : g.owner_id a ∈ g.id_nodes :=
  (hwf.2.1 a ha).2.2

theorem WellFormed.owner_owned {g : Depsgraph} (hwf : WellFormed g) {a : Nat}
    (ha : a ∈ g.operations) : Owned g (g.owner_id a) a :=
  ⟨_, (hwf.2.1 a ha).2.1, (hwf.2.1 a ha).1⟩

theorem WellFormed.follow_valid {g : Depsgraph} (hwf : WellFormed g) (d : Direction) {a : Nat}
    (ha : a ∈ g.operations) {rel : Relation} (hr : rel ∈ d.links (g.op_mem a)) :
    d.follow rel ≠ Target.invalid := by
  cases d
  · have := (hwf.2.2.1 a ha rel hr).1
    simp [Direction.follow, this]
  · simp only [Direction.follow]
    split <;> simp

theorem WellFormed.edge_listed {g : Depsgraph} (hwf : WellFormed g) (d : Direction) {a b : Nat}
    (ha : a ∈ g.operations) (h : Edge d g a b) : b ∈ g.operations := by
  obtain ⟨rel, hr, hf⟩ := h
  cases d
  · have := hwf.2.2.1 a ha rel hr
    simp only [Direction.follow, this.1, if_true, Target.operation.injEq] at hf
    exact hf ▸ this.2
  · have := hwf.2.2.2.1 a ha rel hr
    simp only [Direction.follow] at hf
    split at hf
    · next hc =>
      simp only [Target.operation.injEq] at hf
      exact hf ▸ this hc
    · cases hf

theorem WellFormed.ids_distinct {g : Depsgraph} (hwf : WellFormed g) {n m : Nat}
    (hn : n ∈ g.id_nodes) (hm : m ∈ g.id_nodes)
    (h : (g.id_mem n).id_orig = (g.id_mem m).id_orig) : n = m :=
  hwf.2.2.2.2.1 n hn m hm h

theorem WellFormed.reach_listed {g : Depsgraph} (hwf : WellFormed g) (d : Direction) {s a : Nat}
    (hs : s ∈ g.id_nodes) (h : Reach d g s a) : a ∈ g.operations := by
  obtain ⟨a0, h0, hp⟩ := h
  induction hp with
  | refl => exact hwf.owned_listed hs h0
  | tail _ hbc ih => exact hwf.edge_listed d ih hbc

theorem Reach.reach_step {d : Direction} {g : Depsgraph} {s a b : Nat} (h : Reach d g s a)
    (hab : Edge d g a b) : Reach d g s b := by
  obtain ⟨a0, h0, hp⟩ := h
  exact ⟨a0, h0, hp.tail hab⟩


/-! ### The invariant is kept by every step -/

theorem Inv.after_visit {d : Direction} {g : Depsgraph} {s : Nat} {t : Traversal}
    (hwf : WellFormed g) (hs : s ∈ g.id_nodes) (h : Inv d g s t) {a : Nat}
    (ha : t.op_node = some a) :
    Inv d g s (visit_owner t a) ∧ (visit_owner t a).graph.visited (g.owner_id a) := by
  have hown : t.graph.owner_id a = g.owner_id a := h.topo.owner_id a
  have hra : Reach d g s a := h.cur_reach a ha
  have hla : a ∈ g.operations := hwf.reach_listed d hs hra
  have hvis : ∀ n, (DEG.visit_owner t a).graph.visited n ↔ n = g.owner_id a ∨ t.graph.visited n := by
    intro n
    rw [visit_owner_visited, hown]
  refine ⟨⟨h.topo.trans (visit_owner_topo t a), ?_, ?_, ?_, ?_, ?_, ?_, ?_, ?_, ?_, ?_, ?_, ?_⟩, ?_⟩
  · exact (hvis s).mpr (Or.inr h.start_visited)
  · rw [visit_owner_queue]
    exact h.queue_reach
  · rw [visit_owner_op_node]
    exact h.cur_reach
  · intro x hx hsx
    exact h.sched_reach x hx ((visit_owner_sched t a x).mp hsx)
  · intro x hx
    exact (visit_owner_sched t a x).mpr (h.seeds_sched x hx)
  · intro x hx hsx
    rw [visit_owner_queue, visit_owner_op_node]
    rcases h.processed x hx ((visit_owner_sched t a x).mp hsx) with h1 | h1 | ⟨h1, h2⟩
    · exact Or.inl h1
    · exact Or.inr (Or.inl h1)
    · exact Or.inr (Or.inr ⟨(hvis _).mpr (Or.inr h1),
        fun b hb => (visit_owner_sched t a b).mpr (h2 b hb)⟩)
  · intro e he
    by_cases hv : t.graph.visited (t.graph.owner_id a)
    · rw [visit_owner_calls_of_visited t a hv] at he
      exact h.calls_sound e he
    · rw [visit_owner_calls_of_not_visited t a hv, List.mem_append, List.mem_singleton] at he
      rcases he with he | he
      · exact h.calls_sound e he
      · refine ⟨a, hra, ?_, ?_⟩
        · intro hc
          rw [hown, hc] at hv
          exact hv h.start_visited
        · rw [he, hown, h.topo.id_orig]
  · intro n hn hvn
    by_cases hv : t.graph.visited (t.graph.owner_id a)
    · rw [visit_owner_calls_of_visited t a hv]
      rcases (hvis n).mp hvn with rfl | h1
      · exact h.visited_calls _ hn (hown ▸ hv)
      · exact h.visited_calls n hn h1
    · rw [visit_owner_calls_of_not_visited t a hv, hown, h.topo.id_orig]
      rcases (hvis n).mp hvn with rfl | h1
      · exact Or.inr (List.mem_append_right _ (List.mem_singleton_self _))
      · exact (h.visited_calls n hn h1).imp_right (List.mem_append_left _)
  · intro e he
    by_cases hv : t.graph.visited (t.graph.owner_id a)
    · rw [visit_owner_calls_of_visited t a hv] at he
      obtain ⟨n, hn, hne, hnv⟩ := h.calls_visited e he
      exact ⟨n, hn, hne, (hvis n).mpr (Or.inr hnv)⟩
    · rw [visit_owner_calls_of_not_visited t a hv, List.mem_append, List.mem_singleton] at he
      rcases he with he | he
      · obtain ⟨n, hn, hne, hnv⟩ := h.calls_visited e he
        exact ⟨n, hn, hne, (hvis n).mpr (Or.inr hnv)⟩
      · refine ⟨g.owner_id a, hwf.owner_listed hla, ?_, (hvis _).mpr (Or.inl rfl)⟩
        rw [he, hown, h.topo.id_orig]
  · by_cases hv : t.graph.visited (t.graph.owner_id a)
    · rw [visit_owner_calls_of_visited t a hv]
      exact h.calls_nodup
    · rw [visit_owner_calls_of_not_visited t a hv]
      refine List.Nodup.append h.calls_nodup (List.nodup_singleton _) ?_
      rw [List.disjoint_singleton]
      intro hmem
      obtain ⟨n, hn, hne, hnv⟩ := h.calls_visited _ hmem
      rw [hown, h.topo.id_orig] at hne
      have := hwf.ids_distinct hn (hwf.owner_listed hla) hne
      rw [this, ← hown] at hnv
      exact hv hnv
  · rw [visit_owner_status]
    exact h.status_defined
  · rw [visit_owner_status, visit_owner_queue, visit_owner_op_node]
    exact h.returned_empty
  · exact (hvis _).mpr (Or.inl rfl)


theorem visited_congr {g g' : Depsgraph} (h : g'.id_mem = g.id_mem) (n : Nat) :
    g'.visited n ↔ g.visited n := by
  simp only [Depsgraph.visited, h]

theorem Inv.returned {d : Direction} {g : Depsgraph} {s : Nat} {t : Traversal}
    (h : Inv d g s t) (hc : t.op_node = none) (hq : t.queue = []) :
    Inv d g s { t with status := Status.returned } :=
  ⟨h.topo, h.start_visited, h.queue_reach, h.cur_reach, h.sched_reach, h.seeds_sched,
    h.processed, h.calls_sound, h.visited_calls, h.calls_visited, h.calls_nodup,
    by simp, fun _ => ⟨hq, hc⟩⟩

theorem Inv.pop {d : Direction} {g : Depsgraph} {s : Nat} {t : Traversal}
    (h : Inv d g s t) (hr : t.status = Status.running) (hc : t.op_node = none)
    {a : Nat} {rest : List Nat}
    (hq : t.queue = a :: rest) :
    Inv d g s { t with queue := rest, op_node := some a } := by
  refine ⟨h.topo, h.start_visited, ?_, ?_, h.sched_reach, h.seeds_sched, ?_, h.calls_sound,
    h.visited_calls, h.calls_visited, h.calls_nodup, h.status_defined, ?_⟩
  · intro x hx
    exact h.queue_reach x (hq ▸ List.mem_cons_of_mem _ hx)
  · intro x hx
    simp only [Option.some.injEq] at hx
    exact h.queue_reach x (hq ▸ hx ▸ List.mem_cons_self _ _)
  · intro x hx hsx
    rcases h.processed x hx hsx with h1 | h1 | h1
    · rw [hq] at h1
      rcases List.mem_cons.mp h1 with rfl | h1
      · exact Or.inr (Or.inl rfl)
      · exact Or.inl h1
    · rw [hc] at h1
      cases h1
    · exact Or.inr (Or.inr h1)
  · intro hret
    rw [hr] at hret
    cases hret


theorem Inv.branch {d : Direction} {g : Depsgraph} {s : Nat} {t : Traversal}
    (hwf : WellFormed g) (hs : s ∈ g.id_nodes) (h : Inv d g s t) {a : Nat}
    (ha : t.op_node = some a) (hv : t.graph.visited (g.owner_id a)) :
    Inv d g s { schedule_all d (d.links (g.op_mem a)) t with op_node := none } := by
  have hra : Reach d g s a := h.cur_reach a ha
  have hla : a ∈ g.operations := hwf.reach_listed d hs hra
  obtain ⟨f1, -, f3, f4, f5⟩ := schedule_all_frame d (d.links (g.op_mem a)) t
  obtain ⟨p1, p2, p3⟩ := schedule_all_spec d (d.links (g.op_mem a)) t
    (fun rel hr => hwf.follow_valid d hla hr)
  have hvis : ∀ n, (schedule_all d (d.links (g.op_mem a)) t).graph.visited n ↔
      t.graph.visited n := visited_congr f3
  refine ⟨h.topo.trans f4, (hvis s).mpr h.start_visited, ?_, ?_, ?_, ?_, ?_, ?_, ?_, ?_, ?_,
    ?_, ?_⟩
  · intro x hx
    rcases (p3 x).mp hx with h1 | ⟨-, h1⟩
    · exact h.queue_reach x h1
    · exact hra.reach_step h1
  · intro x hx
    cases hx
  · intro x hx hsx
    rcases (p2 x).mp hsx with h1 | h1
    · exact h.sched_reach x hx h1
    · exact hra.reach_step h1
  · intro x hx
    exact f5 x (h.seeds_sched x hx)
  · intro x hx hsx
    by_cases hsx' : t.graph.sched x
    · rcases h.processed x hx hsx' with h1 | h1 | ⟨h1, h2⟩
      · exact Or.inl ((p3 x).mpr (Or.inl h1))
      · rw [ha] at h1
        cases h1
        exact Or.inr (Or.inr ⟨(hvis _).mpr hv, fun b hb => (p2 b).mpr (Or.inr hb)⟩)
      · exact Or.inr (Or.inr ⟨(hvis _).mpr h1, fun b hb => f5 b (h2 b hb)⟩)
    · rcases (p2 x).mp hsx with h1 | h1
      · exact absurd h1 hsx'
      · exact Or.inl ((p3 x).mpr (Or.inr ⟨hsx', h1⟩))
  · intro e he
    exact h.calls_sound e (f1 ▸ he)
  · intro n hn hvn
    have := h.visited_calls n hn ((hvis n).mp hvn)
    exact this.imp_right (fun h' => f1 ▸ h')
  · intro e he
    obtain ⟨n, hn, hne, hnv⟩ := h.calls_visited e (f1 ▸ he)
    exact ⟨n, hn, hne, (hvis n).mpr hnv⟩
  · show (schedule_all d (d.links (g.op_mem a)) t).calls.Nodup
    rw [f1]
    exact h.calls_nodup
  · show (schedule_all d (d.links (g.op_mem a)) t).status ≠ Status.undefined
    rw [p1]
    exact h.status_defined
  · intro hret
    have hret' : t.status = Status.returned := p1 ▸ hret
    have := (h.returned_empty hret').2
    rw [ha] at this
    cases this

theorem Inv.inv_step {d : Direction} {g : Depsgraph} {s : Nat} {t : Traversal}
    (hwf : WellFormed g) (hs : s ∈ g.id_nodes) (h : Inv d g s t) :
    Inv d g s (traversal_step d t) := by
  unfold traversal_step
  split
  · next hrun =>
    split
    · next hc =>
      split
      · next hq => exact h.returned hc hq
      · next a rest hq => exact h.pop hrun hc hq
    · next a ha =>
      obtain ⟨h1, hv1⟩ := h.after_visit hwf hs ha
      have ha1 : (visit_owner t a).op_node = some a := by rw [visit_owner_op_node, ha]
      have hrun1 : (visit_owner t a).status = Status.running := by rw [visit_owner_status, hrun]
      have hbr := h1.branch hwf hs ha1 hv1
      rw [← h1.topo.links d a] at hbr
      dsimp only
      split
      · next rel hl =>
        rw [hl] at hbr
        split
        · next b hb =>
          split
          · next hsb =>
            simp only [schedule_all, hb, hsb, if_true] at hbr
            exact hbr.pop hrun1 rfl rfl
          · next hsb =>
            simpa only [schedule_all, hb, hsb, if_false] using hbr
        · exact h1
        · next hb =>
          have hla := hwf.reach_listed d hs (h1.cur_reach a ha1)
          refine absurd hb (hwf.follow_valid d hla ?_)
          rw [← h1.topo.links d a, hl]
          exact List.mem_singleton_self _
      · exact hbr
  · exact h


/-! ### The marker reset and the seeding -/

theorem foldl_set_scheduled (l : List Nat) (v : Bool) (g : Depsgraph) :
    (l.foldl (fun g x => g.set_scheduled x v) g).comp_mem = g.comp_mem ∧
    (l.foldl (fun g x => g.set_scheduled x v) g).id_mem = g.id_mem ∧
    (l.foldl (fun g x => g.set_scheduled x v) g).operations = g.operations ∧
    (l.foldl (fun g x => g.set_scheduled x v) g).id_nodes = g.id_nodes ∧
    (l.foldl (fun g x => g.set_scheduled x v) g).id_hash = g.id_hash ∧
    ∀ a, (l.foldl (fun g x => g.set_scheduled x v) g).op_mem a =
      if a ∈ l then { g.op_mem a with scheduled := v } else g.op_mem a := by
  induction l generalizing g with
  | nil => simp
  | cons x l ih =>
    obtain ⟨h1, h2, h3, h4, h5, h6⟩ := ih (g.set_scheduled x v)
    refine ⟨h1, h2, h3, h4, h5, fun a => ?_⟩
    rw [List.foldl_cons, h6 a]
    by_cases hal : a ∈ l <;> by_cases hax : a = x <;> simp [hal, hax]

theorem foldl_set_custom_flags (l : List Nat) (v : Nat) (g : Depsgraph) :
    (l.foldl (fun g x => g.set_custom_flags x v) g).op_mem = g.op_mem ∧
    (l.foldl (fun g x => g.set_custom_flags x v) g).comp_mem = g.comp_mem ∧
    (l.foldl (fun g x => g.set_custom_flags x v) g).operations = g.operations ∧
    (l.foldl (fun g x => g.set_custom_flags x v) g).id_nodes = g.id_nodes ∧
    (l.foldl (fun g x => g.set_custom_flags x v) g).id_hash = g.id_hash ∧
    ∀ n, (l.foldl (fun g x => g.set_custom_flags x v) g).id_mem n =
      if n ∈ l then { g.id_mem n with custom_flags := v } else g.id_mem n := by
  induction l generalizing g with
  | nil => simp
  | cons x l ih =>
    obtain ⟨h1, h2, h3, h4, h5, h6⟩ := ih (g.set_custom_flags x v)
    refine ⟨h1, h2, h3, h4, h5, fun a => ?_⟩
    rw [List.foldl_cons, h6 a]
    by_cases hal : a ∈ l <;> by_cases hax : a = x <;> simp [hal, hax]

/-- What the marker reset writes and what it leaves alone. -/
theorem clear_flags_spec (g : Depsgraph) :
    (∀ a, (deg_foreach_clear_flags g).op_mem a =
      if a ∈ g.operations then { g.op_mem a with scheduled := false } else g.op_mem a) ∧
    (∀ n, (deg_foreach_clear_flags g).id_mem n =
      if n ∈ g.id_nodes then { g.id_mem n with custom_flags := 0 } else g.id_mem n) ∧
    (deg_foreach_clear_flags g).comp_mem = g.comp_mem ∧
    (deg_foreach_clear_flags g).operations = g.operations ∧
    (deg_foreach_clear_flags g).id_nodes = g.id_nodes ∧
    (deg_foreach_clear_flags g).id_hash = g.id_hash := by
  obtain ⟨a1, a2, a3, a4, a5, a6⟩ := foldl_set_scheduled g.operations false g
  obtain ⟨b1, b2, b3, b4, b5, b6⟩ := foldl_set_custom_flags
    (g.operations.foldl (fun g x => g.set_scheduled x false) g).id_nodes 0
    (g.operations.foldl (fun g x => g.set_scheduled x false) g)
  unfold deg_foreach_clear_flags
  dsimp only
  refine ⟨fun a => ?_, fun n => ?_, ?_, ?_, ?_, ?_⟩
  · rw [b1, a6]
  · rw [b6, a4, a2]
  · rw [b2, a1]
  · rw [b3, a3]
  · rw [b4, a4]
  · rw [b5, a5]

theorem clear_flags_topo (g : Depsgraph) : SameTopology g (deg_foreach_clear_flags g) := by
  obtain ⟨h1, h2, h3, h4, h5, h6⟩ := clear_flags_spec g
  refine ⟨?_, ?_, ?_, h3, ?_, ?_, h4, h5, h6⟩ <;> intro a
  · rw [h1]; split <;> rfl
  · rw [h1]; split <;> rfl
  · rw [h1]; split <;> rfl
  · rw [h2]; split <;> rfl
  · rw [h2]; split <;> rfl

theorem clear_flags_not_sched (g : Depsgraph) {a : Nat} (ha : a ∈ g.operations) :
    ¬ (deg_foreach_clear_flags g).sched a := by
  simp [Depsgraph.sched, (clear_flags_spec g).1 a, ha]

theorem clear_flags_not_visited (g : Depsgraph) {n : Nat} (hn : n ∈ g.id_nodes) :
    ¬ (deg_foreach_clear_flags g).visited n := by
  simp [Depsgraph.visited, (clear_flags_spec g).2.1 n, hn]

theorem schedule_component_eq (ops : List Nat) (st : Depsgraph × TraversalQueue) :
    schedule_component ops st =
      (ops.foldl (fun g x => g.set_scheduled x true) st.1, st.2 ++ ops) := by
  unfold schedule_component
  induction ops generalizing st with
  | nil => simp
  | cons x ops ih => simp [ih]

theorem SameTopology.owned {g g' : Depsgraph} (h : SameTopology g g') (n a : Nat) :
    Owned g' n a ↔ Owned g n a := by
  simp only [Owned, h.components, h.comp_mem]

theorem sameTopology_of_op_mem {g g' : Depsgraph} (l : List Nat) (v : Bool)
    (h : ∀ a, g'.op_mem a = if a ∈ l then { g.op_mem a with scheduled := v } else g.op_mem a)
    (h1 : g'.comp_mem = g.comp_mem) (h2 : g'.id_mem = g.id_mem)
    (h3 : g'.operations = g.operations) (h4 : g'.id_nodes = g.id_nodes)
    (h5 : g'.id_hash = g.id_hash) : SameTopology g g' := by
  refine ⟨?_, ?_, ?_, h1, ?_, ?_, h3, h4, h5⟩ <;> intro a
  · rw [h]; split <;> rfl
  · rw [h]; split <;> rfl
  · rw [h]; split <;> rfl
  · rw [h2]
  · rw [h2]

theorem schedule_components_spec (comps : List Nat) (st : Depsgraph × TraversalQueue) :
    (comps.foldl (fun st c => schedule_component (st.1.comp_mem c).operations st) st).1.id_mem
      = st.1.id_mem ∧
    SameTopology st.1
      (comps.foldl (fun st c => schedule_component (st.1.comp_mem c).operations st) st).1 ∧
    (∀ x, (comps.foldl (fun st c => schedule_component (st.1.comp_mem c).operations st) st).1.sched x
      ↔ st.1.sched x ∨ ∃ c ∈ comps, x ∈ (st.1.comp_mem c).operations) ∧
    (∀ x, x ∈ (comps.foldl (fun st c => schedule_component (st.1.comp_mem c).operations st) st).2
      ↔ x ∈ st.2 ∨ ∃ c ∈ comps, x ∈ (st.1.comp_mem c).operations) := by
  induction comps generalizing st with
  | nil => exact ⟨rfl, SameTopology.refl _, by simp, by simp⟩
  | cons c comps ih =>
    obtain ⟨a1, a2, a3, a4, a5, a6⟩ :=
      foldl_set_scheduled (st.1.comp_mem c).operations true st.1
    obtain ⟨h1, h2, h3, h4⟩ := ih (schedule_component (st.1.comp_mem c).operations st)
    rw [List.foldl_cons]
    rw [schedule_component_eq] at h1 h2 h3 h4 ⊢
    dsimp only at h1 h2 h3 h4 ⊢
    have ht := sameTopology_of_op_mem _ _ a6 a1 a2 a3 a4 a5
    refine ⟨h1.trans a2, ht.trans h2, fun x => ?_, fun x => ?_⟩
    · rw [h3 x, a1]
      simp only [Depsgraph.sched, a6, List.mem_cons, exists_eq_or_imp]
      by_cases hx : x ∈ (st.1.comp_mem c).operations <;> simp [hx]
    · rw [h4 x, a1]
      simp only [List.mem_append, List.mem_cons, exists_eq_or_imp]
      tauto

theorem schedule_id_node_spec (g : Depsgraph) (s : Nat) :
    (schedule_id_node g s).1.id_mem = g.id_mem ∧
    SameTopology g (schedule_id_node g s).1 ∧
    (∀ x, (schedule_id_node g s).1.sched x ↔ g.sched x ∨ Owned g s x) ∧
    (∀ x, x ∈ (schedule_id_node g s).2 ↔ Owned g s x) := by
  obtain ⟨h1, h2, h3, h4⟩ := schedule_components_spec (g.id_mem s).components (g, [])
  refine ⟨h1, h2, h3, fun x => ?_⟩
  unfold schedule_id_node
  rw [h4 x]
  simp [Owned]

theorem Inv.inv_begin (d : Direction) {g : Depsgraph} {s : Nat} :
    Inv d g s (traversal_begin g s) := by
  obtain ⟨h1, h2, h3, h4⟩ := schedule_id_node_spec (deg_foreach_clear_flags g) s
  have hc := clear_flags_topo g
  have hown : ∀ x, Owned (deg_foreach_clear_flags g) s x ↔ Owned g s x := hc.owned s
  have hsched : ∀ x, (traversal_begin g s).graph.sched x ↔
      (deg_foreach_clear_flags g).sched x ∨ Owned g s x := by
    intro x
    rw [← hown]
    exact h3 x
  have hvis : ∀ n, (traversal_begin g s).graph.visited n ↔
      n = s ∨ (deg_foreach_clear_flags g).visited n := by
    intro n
    unfold traversal_begin
    dsimp only
    rw [visited_set_visited, visited_congr h1]
  have hq : ∀ x, x ∈ (traversal_begin g s).queue ↔ Owned g s x := by
    intro x
    rw [← hown]
    exact h4 x
  have hseed : ∀ x ∈ g.operations, (traversal_begin g s).graph.sched x → Owned g s x := by
    intro x hx hsx
    rcases (hsched x).mp hsx with h | h
    · exact absurd h (clear_flags_not_sched g hx)
    · exact h
  refine ⟨?_, (hvis s).mpr (Or.inl rfl), ?_, ?_, ?_, ?_, ?_, ?_, ?_, ?_, ?_, ?_, ?_⟩
  · exact (hc.trans h2).trans (sameTopology_set_custom_flags _ _ _)
  · intro x hx
    exact ⟨x, (hq x).mp hx, Relation.ReflTransGen.refl⟩
  · intro x hx
    cases hx
  · intro x hx hsx
    exact ⟨x, hseed x hx hsx, Relation.ReflTransGen.refl⟩
  · intro x hx
    exact (hsched x).mpr (Or.inr hx)
  · intro x hx hsx
    exact Or.inl ((hq x).mpr (hseed x hx hsx))
  · intro e he
    cases he
  · intro n hn hvn
    rcases (hvis n).mp hvn with h | h
    · exact Or.inl h
    · exact absurd h (clear_flags_not_visited g hn)
  · intro e he
    cases he
  · exact List.nodup_nil
  · intro h
    cases h
  · intro h
    cases h


/-! ### Runs -/

theorem traversal_step_of_not_running (d : Direction) (t : Traversal)
    (h : t.status ≠ Status.running) : traversal_step d t = t := by
  unfold traversal_step
  split
  · next h' => exact absurd h' h
  · rfl

theorem run_of_not_running (d : Direction) (n : Nat) (t : Traversal)
    (h : t.status ≠ Status.running) : run (traversal_step d) n t = t := by
  induction n with
  | zero => rfl
  | succ n ih => rw [run, traversal_step_of_not_running d t h, ih]

theorem run_add (step : Traversal → Traversal) (n k : Nat) (t : Traversal) :
    run step (n + k) t = run step k (run step n t) := by
  induction n generalizing t with
  | zero => simp [run]
  | succ n ih => rw [Nat.succ_add, run, run, ih]

theorem run_succ (step : Traversal → Traversal) (n : Nat) (t : Traversal) :
    run step (n + 1) t = step (run step n t) := by
  rw [run_add]
  rfl

theorem run_dependent_step : run dependent_step = run (traversal_step Direction.forward) := by
  have : dependent_step = traversal_step Direction.forward := funext dependent_step_eq
  rw [this]

theorem run_ancestor_step : run ancestor_step = run (traversal_step Direction.backward) := by
  have : ancestor_step = traversal_step Direction.backward := funext ancestor_step_eq
  rw [this]

theorem Inv.inv_run {d : Direction} {g : Depsgraph} {s : Nat} {t : Traversal}
    (hwf : WellFormed g) (hs : s ∈ g.id_nodes) (h : Inv d g s t) (n : Nat) :
    Inv d g s (DEG.run (traversal_step d) n t) := by
  induction n generalizing t with
  | zero => exact h
  | succ n ih => exact ih (h.inv_step hwf hs)

/-! ### What a returned traversal has reported -/

theorem Inv.reach_sched {d : Direction} {g : Depsgraph} {s : Nat} {t : Traversal}
    (hwf : WellFormed g) (hs : s ∈ g.id_nodes) (h : Inv d g s t)
    (hret : t.status = Status.returned) {a : Nat} (ha : Reach d g s a) : t.graph.sched a := by
  obtain ⟨hq, hc⟩ := h.returned_empty hret
  obtain ⟨a0, h0, hp⟩ := ha
  induction hp with
  | refl => exact h.seeds_sched _ h0
  | @tail b c hab hbc ih =>
    have hb : b ∈ g.operations := hwf.reach_listed d hs ⟨a0, h0, hab⟩
    rcases h.processed b hb ih with h1 | h1 | ⟨-, h1⟩
    · rw [hq] at h1
      cases h1
    · rw [hc] at h1
      cases h1
    · exact h1 c hbc

theorem Inv.calls_iff {d : Direction} {g : Depsgraph} {s : Nat} {t : Traversal}
    (hwf : WellFormed g) (hs : s ∈ g.id_nodes) (h : Inv d g s t)
    (hret : t.status = Status.returned) (e : Nat) :
    e ∈ t.calls ↔ ∃ n ∈ g.id_nodes, (g.id_mem n).id_orig = e ∧ n ≠ s ∧
      ∃ a b, Owned g s a ∧ Owned g n b ∧ Relation.TransGen (Edge d g) a b := by
  obtain ⟨hq, hc⟩ := h.returned_empty hret
  constructor
  · intro he
    obtain ⟨b, hb, hne, hid⟩ := h.calls_sound e he
    have hbl := hwf.reach_listed d hs hb
    obtain ⟨a0, h0, hp⟩ := hb
    refine ⟨g.owner_id b, hwf.owner_listed hbl, hid, hne, a0, b, h0, hwf.owner_owned hbl, ?_⟩
    rcases Relation.reflTransGen_iff_eq_or_transGen.mp hp with heq | htr
    · rw [heq] at hne
      exact absurd (hwf.owned_owner hs h0) hne
    · exact htr
  · rintro ⟨n, hn, hid, hne, a, b, ha, hb, hp⟩
    have hrb : Reach d g s b := ⟨a, ha, hp.to_reflTransGen⟩
    have hsb := h.reach_sched hwf hs hret hrb
    have hbl := hwf.reach_listed d hs hrb
    rcases h.processed b hbl hsb with h1 | h1 | ⟨h1, -⟩
    · rw [hq] at h1
      cases h1
    · rw [hc] at h1
      cases h1
    · rw [hwf.owned_owner hn hb] at h1
      rcases h.visited_calls n hn h1 with h2 | h2
      · exact absurd h2 hne
      · exact hid ▸ h2

theorem edge_forward_iff (g : Depsgraph) (a b : Nat) :
    Edge Direction.forward g a b ↔ out_edge g a b := by
  simp only [Edge, out_edge, Direction.links, Direction.follow]
  constructor
  · rintro ⟨rel, hr, hf⟩
    refine ⟨rel, hr, ?_⟩
    split at hf
    · next hc =>
      cases hf
      cases hrel : rel.«to»
      rw [hrel] at hc
      simp only at hc ⊢
      rw [hc]
    · cases hf
  · rintro ⟨rel, hr, hf⟩
    exact ⟨rel, hr, by simp [hf]⟩

theorem edge_backward_iff (g : Depsgraph) (a b : Nat) :
    Edge Direction.backward g a b ↔ in_edge g a b := by
  simp only [Edge, in_edge, Direction.links, Direction.follow]
  constructor
  · rintro ⟨rel, hr, hf⟩
    refine ⟨rel, hr, ?_⟩
    split at hf
    · next hc =>
      cases hf
      cases hrel : rel.«from»
      rw [hrel] at hc
      simp only at hc ⊢
      rw [hc]
    · cases hf
  · rintro ⟨rel, hr, hf⟩
    exact ⟨rel, hr, by simp [hf]⟩

theorem edge_forward_eq (g : Depsgraph) : Edge Direction.forward g = out_edge g := by
  funext a b
  exact propext (edge_forward_iff g a b)

theorem edge_backward_eq (g : Depsgraph) : Edge Direction.backward g = in_edge g := by
  funext a b
  exact propext (edge_backward_iff g a b)

/-! ### Termination of the forward traversal -/

theorem filter_length_le (l : List Nat) (p q : Nat → Bool) (h : ∀ x, q x = true → p x = true) :
    (l.filter q).length ≤ (l.filter p).length := by
  induction l with
  | nil => simp
  | cons x l ih =>
    simp only [List.filter_cons]
    by_cases hq : q x = true
    · simp [hq, h x hq, ih]
    · by_cases hp : p x = true
      · simp [hq, hp]
        omega
      · simp [hq, hp, ih]

theorem filter_length_lt (l : List Nat) (p q : Nat → Bool) (h : ∀ x, q x = true → p x = true)
    {b : Nat} (hb : b ∈ l) (hpb : p b = true) (hqb : ¬ q b = true) :
    (l.filter q).length < (l.filter p).length := by
  induction l with
  | nil => cases hb
  | cons x l ih =>
    have hle := filter_length_le l p q h
    simp only [List.filter_cons]
    rcases List.mem_cons.mp hb with rfl | hb
    · simp [hpb, hqb]
      omega
    · have := ih hb
      by_cases hq : q x = true
      · simp [hq, h x hq, this]
      · by_cases hp : p x = true
        · simp [hq, hp]
          omega
        · simp [hq, hp, this]

theorem unscheduled_set_le (g : Depsgraph) (b : Nat) :
    unscheduled (g.set_scheduled b true) ≤ unscheduled g := by
  unfold unscheduled
  apply filter_length_le
  intro x
  simp only [set_scheduled_operations, set_scheduled_op_mem, decide_eq_true_eq]
  split <;> simp

theorem unscheduled_set_lt (g : Depsgraph) {b : Nat} (hb : b ∈ g.operations)
    (hs : (g.op_mem b).scheduled = false) :
    unscheduled (g.set_scheduled b true) < unscheduled g := by
  unfold unscheduled
  refine filter_length_lt _ _ _ ?_ hb (by simpa using hs) (by simp)
  intro x
  simp only [set_scheduled_operations, set_scheduled_op_mem, decide_eq_true_eq]
  split <;> simp

theorem visit_owner_unscheduled (t : Traversal) (a : Nat) :
    unscheduled (visit_owner t a).graph = unscheduled t.graph := by
  unfold unscheduled
  rw [visit_owner_op_mem, (visit_owner_topo t a).operations]

theorem schedule_all_measure (d : Direction) (rels : List Relation) (t : Traversal)
    (hl : ∀ rel ∈ rels, ∀ x, d.follow rel = Target.operation x → x ∈ t.graph.operations) :
    unscheduled (schedule_all d rels t).graph + (schedule_all d rels t).queue.length ≤
      unscheduled t.graph + t.queue.length := by
  induction rels generalizing t with
  | nil => exact le_rfl
  | cons rel rels ih =>
    have hl' : ∀ r ∈ rels, ∀ x, d.follow r = Target.operation x → x ∈ t.graph.operations :=
      fun r hr => hl r (List.mem_cons_of_mem _ hr)
    unfold schedule_all
    split
    · next b hb =>
      split
      · next hs =>
        have h1 := ih { t with queue := b :: t.queue, graph := t.graph.set_scheduled b true } hl'
        have h2 := unscheduled_set_lt t.graph (hl rel (List.mem_cons_self _ _) b hb) hs
        simp only [List.length_cons] at h1
        omega
      · exact ih t hl'
    · exact ih t hl'
    · exact le_rfl

theorem step_progress {d : Direction} {g : Depsgraph} {s : Nat} {t : Traversal}
    (hwf : WellFormed g) (hs : s ∈ g.id_nodes) (h : Inv d g s t)
    (hrun : t.status = Status.running)
    (hd : ∀ a ∈ g.operations, ∀ rel ∈ d.links (g.op_mem a), d.follow rel ≠ Target.not_operation) :
    (traversal_step d t).status = Status.returned ∨
      work_left (traversal_step d t) < work_left t := by
  unfold traversal_step
  split
  · split
    · next hc =>
      split
      · exact Or.inl rfl
      · next a rest hq =>
        right
        simp only [work_left, hc, hq, List.length_cons, if_true]
        simp
        omega
    · next a ha =>
      right
      obtain ⟨h1, -⟩ := h.after_visit hwf hs ha
      have ha1 : (visit_owner t a).op_node = some a := by rw [visit_owner_op_node, ha]
      have hla := hwf.reach_listed d hs (h.cur_reach a ha)
      have hops : (visit_owner t a).graph.operations = g.operations := h1.topo.operations
      have hm : work_left t = 2 * (unscheduled (visit_owner t a).graph +
          (visit_owner t a).queue.length) + 1 := by
        simp [work_left, ha, visit_owner_unscheduled, visit_owner_queue]
      rw [hm]
      dsimp only
      split
      · next rel hl =>
        have hrel : rel ∈ d.links (g.op_mem a) := by
          rw [← h1.topo.links d a, hl]
          exact List.mem_singleton_self _
        split
        · next b hb =>
          have hbl : b ∈ g.operations := hwf.edge_listed d hla ⟨rel, hrel, hb⟩
          split
          · next hsb =>
            have := unscheduled_set_lt (visit_owner t a).graph (hops ▸ hbl) hsb
            simp only [work_left]
            simp
            omega
          · simp [work_left]
        · next hb => exact absurd hb (hd a hla rel hrel)
        · next hb => exact absurd hb (hwf.follow_valid d hla hrel)
      · have := schedule_all_measure d (d.links ((visit_owner t a).graph.op_mem a))
          (visit_owner t a) (by
            intro rel hr x hx
            rw [hops]
            rw [h1.topo.links d a] at hr
            exact hwf.edge_listed d hla ⟨rel, hr, hx⟩)
        simp only [work_left]
        simp
        omega
  · next hne => exact absurd hrun (hne · )

theorem run_returns {d : Direction} {g : Depsgraph} {s : Nat}
    (hwf : WellFormed g) (hs : s ∈ g.id_nodes)
    (hd : ∀ a ∈ g.operations, ∀ rel ∈ d.links (g.op_mem a), d.follow rel ≠ Target.not_operation)
    (n : Nat) (t : Traversal) (h : Inv d g s t) (hm : work_left t < n) :
    (run (traversal_step d) n t).status = Status.returned := by
  induction n generalizing t with
  | zero => omega
  | succ n ih =>
    rw [run]
    have hinv := h.inv_step hwf hs
    by_cases hrun : t.status = Status.running
    · rcases step_progress hwf hs h hrun hd with h1 | h1
      · rw [run_of_not_running d n _ (by rw [h1]; simp)]
        exact h1
      · exact ih _ hinv (by omega)
    · rw [traversal_step_of_not_running d t hrun, run_of_not_running d n t hrun]
      cases hst : t.status with
      | running => exact absurd hst hrun
      | returned => rfl
      | undefined => exact absurd hst h.status_defined


/-! ### Independence of the markers found at the call -/

theorem Sim.sim_refl (g : Depsgraph) (t : Traversal) : Sim g t t :=
  ⟨rfl, rfl, rfl, rfl, SameTopology.refl _, fun _ _ => Iff.rfl, fun _ _ => Iff.rfl⟩

theorem sched_iff_not_false (g : Depsgraph) (a : Nat) :
    (g.op_mem a).scheduled = false ↔ ¬ g.sched a := by
  simp [Depsgraph.sched]

theorem Sim.sim_visit {g : Depsgraph} {t t' : Traversal} (h : Sim g t t')
    (hg : SameTopology g t.graph) {a : Nat} (hn : g.owner_id a ∈ g.id_nodes) :
    Sim g (visit_owner t a) (visit_owner t' a) := by
  have ho : t.graph.owner_id a = g.owner_id a := hg.owner_id a
  have ho' : t'.graph.owner_id a = g.owner_id a := (h.topo.owner_id a).trans ho
  have hv : t'.graph.visited (t'.graph.owner_id a) ↔ t.graph.visited (t.graph.owner_id a) := by
    rw [ho, ho']
    exact h.visited _ hn
  refine ⟨?_, ?_, ?_, ?_, ?_, ?_, ?_⟩
  · rw [visit_owner_queue, visit_owner_queue, h.queue]
  · rw [visit_owner_op_node, visit_owner_op_node, h.op_node]
  · by_cases hvt : t.graph.visited (t.graph.owner_id a)
    · rw [visit_owner_calls_of_visited t a hvt, visit_owner_calls_of_visited t' a (hv.mpr hvt),
        h.calls]
    · rw [visit_owner_calls_of_not_visited t a hvt,
        visit_owner_calls_of_not_visited t' a (fun hc => hvt (hv.mp hc)), h.calls, ho, ho',
        h.topo.id_orig]
  · rw [visit_owner_status, visit_owner_status, h.status]
  · exact ((visit_owner_topo t a).symm.trans h.topo).trans (visit_owner_topo t' a)
  · intro x hx
    rw [visit_owner_sched, visit_owner_sched]
    exact h.sched x hx
  · intro n hn'
    rw [visit_owner_visited, visit_owner_visited, ho, ho', h.visited n hn']

theorem Sim.mark {g : Depsgraph} {t t' : Traversal} (h : Sim g t t') (b : Nat)
    {q q' : TraversalQueue} (hq : q' = q) {c c' : Option Nat} (hc : c' = c) :
    Sim g { t with graph := t.graph.set_scheduled b true, queue := q, op_node := c }
      { t' with graph := t'.graph.set_scheduled b true, queue := q', op_node := c' } := by
  refine ⟨hq, hc, h.calls, h.status, ?_, ?_, h.visited⟩
  · exact ((sameTopology_set_scheduled _ _ _).symm.trans h.topo).trans
      (sameTopology_set_scheduled _ _ _)
  · intro x hx
    show (t'.graph.set_scheduled b true).sched x ↔ (t.graph.set_scheduled b true).sched x
    rw [sched_set_scheduled, sched_set_scheduled, h.sched x hx]

theorem Sim.schedule_all {g : Depsgraph} (d : Direction) (rels : List Relation)
    {t t' : Traversal} (h : Sim g t t')
    (hl : ∀ rel ∈ rels, ∀ x, d.follow rel = Target.operation x → x ∈ g.operations) :
    Sim g (DEG.schedule_all d rels t) (DEG.schedule_all d rels t') := by
  induction rels generalizing t t' with
  | nil => exact h
  | cons rel rels ih =>
    have hl' : ∀ r ∈ rels, ∀ x, d.follow r = Target.operation x → x ∈ g.operations :=
      fun r hr => hl r (List.mem_cons_of_mem _ hr)
    unfold DEG.schedule_all
    split
    · next b hb =>
      have hbl := hl rel (List.mem_cons_self _ _) b hb
      have hsb : (t'.graph.op_mem b).scheduled = false ↔ (t.graph.op_mem b).scheduled = false := by
        rw [sched_iff_not_false, sched_iff_not_false, h.sched b hbl]
      by_cases hs : (t.graph.op_mem b).scheduled = false
      · rw [if_pos hs, if_pos (hsb.mpr hs)]
        exact ih (h.mark b (congrArg (b :: ·) h.queue) h.op_node) hl'
      · rw [if_neg hs, if_neg (fun hc => hs (hsb.mp hc))]
        exact ih h hl'
    · exact ih h hl'
    · exact ⟨h.queue, h.op_node, h.calls, rfl, h.topo, h.sched, h.visited⟩

theorem Sim.sim_step {d : Direction} {g : Depsgraph} {s : Nat} {t t' : Traversal}
    (hwf : WellFormed g) (hs : s ∈ g.id_nodes) (hi : Inv d g s t) (h : Sim g t t') :
    Sim g (traversal_step d t) (traversal_step d t') := by
  unfold traversal_step
  rw [h.status, h.op_node, h.queue]
  split
  · split
    · split
      · exact ⟨rfl, rfl, h.calls, rfl, h.topo, h.sched, h.visited⟩
      · next a rest hq => exact ⟨rfl, rfl, h.calls, rfl, h.topo, h.sched, h.visited⟩
    · next a ha =>
      have hla := hwf.reach_listed d hs (hi.cur_reach a ha)
      have h1 := h.sim_visit hi.topo (hwf.owner_listed hla)
      obtain ⟨hi1, -⟩ := hi.after_visit hwf hs ha
      have hlinks : d.links ((visit_owner t' a).graph.op_mem a) =
          d.links ((visit_owner t a).graph.op_mem a) := h1.topo.links d a
      have hlg : d.links ((visit_owner t a).graph.op_mem a) = d.links (g.op_mem a) :=
        hi1.topo.links d a
      dsimp only
      rw [hlinks]
      split
      · next rel hl =>
        have hrel : rel ∈ d.links (g.op_mem a) := by
          rw [← hlg, hl]
          exact List.mem_singleton_self _
        split
        · next b hb =>
          have hbl : b ∈ g.operations := hwf.edge_listed d hla ⟨rel, hrel, hb⟩
          have hsb : ((visit_owner t' a).graph.op_mem b).scheduled = false ↔
              ((visit_owner t a).graph.op_mem b).scheduled = false := by
            rw [sched_iff_not_false, sched_iff_not_false, h1.sched b hbl]
          by_cases hsc : ((visit_owner t a).graph.op_mem b).scheduled = false
          · rw [if_pos hsc, if_pos (hsb.mpr hsc)]
            exact h1.mark b h1.queue rfl
          · rw [if_neg hsc, if_neg (fun hc => hsc (hsb.mp hc))]
            exact ⟨h1.queue, rfl, h1.calls, h1.status, h1.topo, h1.sched, h1.visited⟩
        · exact h1
        · exact ⟨h1.queue, h1.op_node, h1.calls, rfl, h1.topo, h1.sched, h1.visited⟩
      · have h2 := h1.schedule_all d (d.links ((visit_owner t a).graph.op_mem a)) (by
          intro rel hr x hx
          rw [hlg] at hr
          exact hwf.edge_listed d hla ⟨rel, hr, hx⟩)
        exact ⟨h2.queue, rfl, h2.calls, h2.status, h2.topo, h2.sched, h2.visited⟩
  · exact h

theorem Sim.sim_run {d : Direction} {g : Depsgraph} {s : Nat} {t t' : Traversal}
    (hwf : WellFormed g) (hs : s ∈ g.id_nodes) (hi : Inv d g s t) (h : Sim g t t') (n : Nat) :
    Sim g (DEG.run (traversal_step d) n t) (DEG.run (traversal_step d) n t') := by
  induction n generalizing t t' with
  | zero => exact h
  | succ n ih => exact ih (hi.inv_step hwf hs) (h.sim_step hwf hs hi)

theorem schedule_components_queue (comps : List Nat) (st : Depsgraph × TraversalQueue) :
    (comps.foldl (fun st c => schedule_component (st.1.comp_mem c).operations st) st).2 =
      st.2 ++ comps.flatMap (fun c => (st.1.comp_mem c).operations) := by
  induction comps generalizing st with
  | nil => simp
  | cons c comps ih =>
    rw [List.foldl_cons, ih, schedule_component_eq]
    dsimp only
    rw [(foldl_set_scheduled _ true st.1).1]
    simp

theorem schedule_id_node_queue (g : Depsgraph) (s : Nat) :
    (schedule_id_node g s).2 = seeds g s := by
  unfold schedule_id_node seeds
  rw [schedule_components_queue]
  rfl

theorem traversal_begin_queue (g : Depsgraph) (s : Nat) :
    (traversal_begin g s).queue = seeds g s := by
  unfold traversal_begin
  dsimp only
  rw [schedule_id_node_queue]
  unfold seeds
  rw [(clear_flags_topo g).components, (clear_flags_topo g).comp_mem]

theorem SameTopology.seeds {g g' : Depsgraph} (h : SameTopology g g') (s : Nat) :
    DEG.seeds g' s = DEG.seeds g s := by
  unfold DEG.seeds
  rw [h.components, h.comp_mem]

theorem traversal_begin_sched (g : Depsgraph) (s : Nat) {a : Nat} (ha : a ∈ g.operations) :
    (traversal_begin g s).graph.sched a ↔ Owned g s a := by
  obtain ⟨-, -, h3, -⟩ := schedule_id_node_spec (deg_foreach_clear_flags g) s
  have : (traversal_begin g s).graph.sched a ↔
      (deg_foreach_clear_flags g).sched a ∨ Owned (deg_foreach_clear_flags g) s a := h3 a
  rw [this, (clear_flags_topo g).owned s a]
  constructor
  · rintro (h | h)
    · exact absurd h (clear_flags_not_sched g ha)
    · exact h
  · exact Or.inr

theorem traversal_begin_visited (g : Depsgraph) (s : Nat) {n : Nat} (hn : n ∈ g.id_nodes) :
    (traversal_begin g s).graph.visited n ↔ n = s := by
  obtain ⟨h1, -, -, -⟩ := schedule_id_node_spec (deg_foreach_clear_flags g) s
  have : (traversal_begin g s).graph.visited n ↔
      n = s ∨ (deg_foreach_clear_flags g).visited n := by
    unfold traversal_begin
    dsimp only
    rw [visited_set_visited, visited_congr h1]
  rw [this]
  constructor
  · rintro (h | h)
    · exact h
    · exact absurd h (clear_flags_not_visited g hn)
  · exact Or.inl

theorem Sim.sim_begin {g g' : Depsgraph} (h : SameTopology g g') (s : Nat) :
    Sim g (traversal_begin g s) (traversal_begin g' s) := by
  have i1 := Inv.inv_begin Direction.forward (g := g) (s := s)
  have i2 := Inv.inv_begin Direction.forward (g := g') (s := s)
  refine ⟨?_, rfl, rfl, rfl, i1.topo.symm.trans (h.trans i2.topo), ?_, ?_⟩
  · rw [traversal_begin_queue, traversal_begin_queue, h.seeds]
  · intro a ha
    rw [traversal_begin_sched g s ha, traversal_begin_sched g' s (h.operations ▸ ha), h.owned]
  · intro n hn
    rw [traversal_begin_visited g s hn, traversal_begin_visited g' s (h.id_nodes ▸ hn)]


/-! ### The start entity and the log, for every graph -/

theorem StartInv.start_begin (g : Depsgraph) (s : Nat) : StartInv g s (traversal_begin g s) :=
  ⟨(Inv.inv_begin Direction.forward).topo, (Inv.inv_begin Direction.forward).start_visited,
    fun _ he => by cases he⟩

theorem StartInv.start_visit {g : Depsgraph} {s : Nat} {t : Traversal} (h : StartInv g s t)
    (a : Nat) : StartInv g s (visit_owner t a) := by
  refine ⟨h.topo.trans (visit_owner_topo t a), ?_, ?_⟩
  · exact (visit_owner_visited t a s).mpr (Or.inr h.start_visited)
  · intro e he
    by_cases hv : t.graph.visited (t.graph.owner_id a)
    · rw [visit_owner_calls_of_visited t a hv] at he
      exact h.calls_other e he
    · rw [visit_owner_calls_of_not_visited t a hv, List.mem_append, List.mem_singleton] at he
      rcases he with he | he
      · exact h.calls_other e he
      · refine ⟨t.graph.owner_id a, ?_, ?_⟩
        · intro hc
          rw [hc] at hv
          exact hv h.start_visited
        · rw [he, h.topo.id_orig]

theorem StartInv.frame {g : Depsgraph} {s : Nat} {t r : Traversal} (h : StartInv g s t)
    (hc : r.calls = t.calls) (hm : r.graph.id_mem = t.graph.id_mem)
    (ht : SameTopology t.graph r.graph) : StartInv g s r :=
  ⟨h.topo.trans ht, (visited_congr hm s).mpr h.start_visited, fun e he => h.calls_other e (hc ▸ he)⟩

theorem StartInv.start_step {g : Depsgraph} {s : Nat} {t : Traversal} (d : Direction)
    (h : StartInv g s t) : StartInv g s (traversal_step d t) := by
  unfold traversal_step
  split
  · split
    · split
      · exact h.frame rfl rfl (SameTopology.refl _)
      · exact h.frame rfl rfl (SameTopology.refl _)
    · next a ha =>
      have h1 := h.start_visit a
      dsimp only
      split
      · split
        · split
          · exact h1.frame rfl rfl (sameTopology_set_scheduled _ _ _)
          · exact h1.frame rfl rfl (SameTopology.refl _)
        · exact h1
        · exact h1.frame rfl rfl (SameTopology.refl _)
      · obtain ⟨f1, -, f3, f4, -⟩ :=
          schedule_all_frame d (d.links ((visit_owner t a).graph.op_mem a)) (visit_owner t a)
        exact h1.frame f1 f3 f4
  · exact h

theorem StartInv.start_run {g : Depsgraph} {s : Nat} {t : Traversal} (d : Direction)
    (h : StartInv g s t) (n : Nat) : StartInv g s (DEG.run (traversal_step d) n t) := by
  induction n generalizing t with
  | zero => exact h
  | succ n ih => exact ih (h.start_step d)

/-! ### The pass that never ends -/

theorem ancestor_step_stutter (t : Traversal) (a : Nat) (rel : Relation)
    (hrun : t.status = Status.running) (ha : t.op_node = some a)
    (hv : t.graph.visited (t.graph.owner_id a))
    (hl : (t.graph.op_mem a).inlinks = [rel])
    (hc : rel.«from».cls ≠ NodeClass.OPERATION) : ancestor_step t = t := by
  have h1 : visit_owner t a = t := by
    unfold visit_owner
    dsimp only
    split
    · next h' => exact absurd h' hv
    · rfl
  unfold ancestor_step
  rw [hrun, ha]
  dsimp only
  rw [h1, hl]
  dsimp only
  rw [if_neg hc]

theorem run_fixed (step : Traversal → Traversal) (t : Traversal) (h : step t = t) (n : Nat) :
    run step n t = t := by
  induction n with
  | zero => rfl
  | succ n ih => rw [run, h, ih]

theorem dependent_pass (t : Traversal) (a : Nat) (hrun : t.status = Status.running)
    (ha : t.op_node = some a) :
    (dependent_step t).status = Status.undefined ∨ (dependent_step t).op_node = none ∨
      ∃ b, (t.graph.op_mem b).scheduled = false ∧
        ((dependent_step t).graph.op_mem b).scheduled = true ∧
        (dependent_step t).op_node = some b := by
  unfold dependent_step
  rw [hrun, ha]
  dsimp only
  split
  · next rel hl =>
    split
    · split
      · next hs =>
        right; right
        rw [visit_owner_op_mem] at hs
        exact ⟨_, hs, by simp, rfl⟩
      · exact Or.inr (Or.inl rfl)
    · exact Or.inl rfl
  · exact Or.inr (Or.inl rfl)


/-! ## Properties of the queries -/

theorem dependent_inv {g : Depsgraph} {id s : Nat} (hwf : WellFormed g)
    (hs : find_id_node g id = some s) (fuel : Nat) :
    deg_foreach_dependent_ID g id fuel =
        run (traversal_step Direction.forward) fuel (traversal_begin g s) ∧
      Inv Direction.forward g s (deg_foreach_dependent_ID g id fuel) := by
  have : deg_foreach_dependent_ID g id fuel =
      run (traversal_step Direction.forward) fuel (traversal_begin g s) := by
    unfold deg_foreach_dependent_ID
    rw [hs, run_dependent_step]
  rw [this]
  exact ⟨rfl, (Inv.inv_begin Direction.forward).inv_run hwf (hwf.find hs).1 fuel⟩

theorem ancestor_inv {g : Depsgraph} {id s : Nat} (hwf : WellFormed g)
    (hs : find_id_node g id = some s) (fuel : Nat) :
    deg_foreach_ancestor_ID g id fuel =
        run (traversal_step Direction.backward) fuel (traversal_begin g s) ∧
      Inv Direction.backward g s (deg_foreach_ancestor_ID g id fuel) := by
  have : deg_foreach_ancestor_ID g id fuel =
      run (traversal_step Direction.backward) fuel (traversal_begin g s) := by
    unfold deg_foreach_ancestor_ID
    rw [hs, run_ancestor_step]
  rw [this]
  exact ⟨rfl, (Inv.inv_begin Direction.backward).inv_run hwf (hwf.find hs).1 fuel⟩

theorem forward_never_passes_over (g : Depsgraph) :
    ∀ a ∈ g.operations, ∀ rel ∈ Direction.forward.links (g.op_mem a),
      Direction.forward.follow rel ≠ Target.not_operation := by
  intro a _ rel _
  simp only [Direction.follow]
  split <;> simp

theorem dependent_returns {g : Depsgraph} {id s : Nat} (hwf : WellFormed g)
    (hs : find_id_node g id = some s) (fuel : Nat)
    (hfuel : work_left (traversal_begin g s) < fuel) :
    (deg_foreach_dependent_ID g id fuel).status = Status.returned := by
  rw [(dependent_inv hwf hs fuel).1]
  exact run_returns hwf (hwf.find hs).1 (forward_never_passes_over g) fuel _
    (Inv.inv_begin Direction.forward) hfuel

/-- When every incoming relation of a listed operation comes from an operation
node, the backward traversal returns as the forward one does. -/
theorem ancestor_returns {g : Depsgraph} {id s : Nat} (hwf : WellFormed g)
    (hs : find_id_node g id = some s)
    (hops : ∀ a ∈ g.operations, ∀ rel ∈ (g.op_mem a).inlinks,
      rel.«from».cls = NodeClass.OPERATION)
    (fuel : Nat) (hfuel : work_left (traversal_begin g s) < fuel) :
    (deg_foreach_ancestor_ID g id fuel).status = Status.returned := by
  rw [(ancestor_inv hwf hs fuel).1]
  refine run_returns hwf (hwf.find hs).1 ?_ fuel _ (Inv.inv_begin Direction.backward) hfuel
  intro a ha rel hr
  simp [Direction.follow, hops a ha rel hr]

/-- C1: for a well-formed graph and a start entity found in it, with enough fuel
`deg_foreach_dependent_ID` returns, and the identities it has passed to the
callback are exactly the identities of the entity nodes other than the start
node that own an operation reached, by one or more outgoing relations, from an
operation owned by the start node. -/
theorem dependent_reports_exactly_reachable (g : Depsgraph) (id s : Nat)
    (hwf : WellFormed g) (hs : find_id_node g id = some s) (fuel : Nat)
    (hfuel : work_left (traversal_begin g s) < fuel) :
    (deg_foreach_dependent_ID g id fuel).status = Status.returned ∧
    ∀ e, e ∈ (deg_foreach_dependent_ID g id fuel).calls ↔
      ∃ n ∈ g.id_nodes, (g.id_mem n).id_orig = e ∧ n ≠ s ∧
        ∃ a b, Owned g s a ∧ Owned g n b ∧ Relation.TransGen (out_edge g) a b := by
  have hret := dependent_returns hwf hs fuel hfuel
  refine ⟨hret, fun e => ?_⟩
  rw [← edge_forward_eq]
  exact (dependent_inv hwf hs fuel).2.calls_iff hwf (hwf.find hs).1 hret e

/-- C1 on the chain A.op → B.op → C.op: the query from A reports B and C, the
query from C reports nothing. -/
theorem dependent_reports_exactly_reachable_witness :
    WellFormed chain ∧ find_id_node chain 10 = some 0 ∧
    work_left (traversal_begin chain 0) < 9 ∧
    (deg_foreach_dependent_ID chain 10 9).calls = [11, 12] ∧
    (deg_foreach_dependent_ID chain 12 9).calls = [] ∧
    (deg_foreach_dependent_ID chain 12 9).status = Status.returned ∧
    ((deg_foreach_dependent_ID chain 10 9).status = Status.returned ∧
      ∀ e, e ∈ (deg_foreach_dependent_ID chain 10 9).calls ↔
        ∃ n ∈ chain.id_nodes, (chain.id_mem n).id_orig = e ∧ n ≠ 0 ∧
          ∃ a b, Owned chain 0 a ∧ Owned chain n b ∧ Relation.TransGen (out_edge chain) a b) :=
  ⟨by decide, by decide, by decide, by decide, by decide, by decide,
    dependent_reports_exactly_reachable chain 10 0 (by decide) (by decide) 9 (by decide)⟩

/-- C2: for a well-formed graph and a start entity found in it, whenever
`deg_foreach_ancestor_ID` has returned, the identities it has passed to the
callback are exactly the identities of the entity nodes other than the start
node that own an operation reached from an operation owned by the start node
by one or more incoming relations followed backward, each coming from an
operation node. -/
theorem ancestor_reports_exactly_reachable (g : Depsgraph) (id s : Nat)
    (hwf : WellFormed g) (hs : find_id_node g id = some s) (fuel : Nat)
    (hret : (deg_foreach_ancestor_ID g id fuel).status = Status.returned) :
    ∀ e, e ∈ (deg_foreach_ancestor_ID g id fuel).calls ↔
      ∃ n ∈ g.id_nodes, (g.id_mem n).id_orig = e ∧ n ≠ s ∧
        ∃ a b, Owned g s a ∧ Owned g n b ∧ Relation.TransGen (in_edge g) a b := by
  intro e
  rw [← edge_backward_eq]
  exact (ancestor_inv hwf hs fuel).2.calls_iff hwf (hwf.find hs).1 hret e

/-- C2 on the chain A.op → B.op → C.op: the query from C returns and reports B
and A. -/
theorem ancestor_reports_exactly_reachable_witness :
    WellFormed chain ∧ find_id_node chain 12 = some 2 ∧
    (deg_foreach_ancestor_ID chain 12 9).status = Status.returned ∧
    (deg_foreach_ancestor_ID chain 12 9).calls = [11, 10] ∧
    ∀ e, e ∈ (deg_foreach_ancestor_ID chain 12 9).calls ↔
      ∃ n ∈ chain.id_nodes, (chain.id_mem n).id_orig = e ∧ n ≠ 2 ∧
        ∃ a b, Owned chain 2 a ∧ Owned chain n b ∧ Relation.TransGen (in_edge chain) a b :=
  ⟨by decide, by decide, by decide, by decide,
    ancestor_reports_exactly_reachable chain 12 2 (by decide) (by decide) 9 (by decide)⟩

/-- C3 (the code departs from the specified behaviour): on the graph `timed`, whose only
operation has a single incoming relation that comes from a node that is not
an operation, `deg_foreach_ancestor_ID` never returns: whatever the fuel, the
traversal is still running. -/
theorem ancestor_never_returns_on_timed (fuel : Nat) :
    (deg_foreach_ancestor_ID timed 10 fuel).status = Status.running := by
  have hfix : ancestor_step (ancestor_step (traversal_begin timed 0)) =
      ancestor_step (traversal_begin timed 0) :=
    ancestor_step_stutter _ 0 ⟨⟨NodeClass.GENERIC, 7⟩, op 0⟩ (by decide) (by decide)
      (by unfold Depsgraph.visited; decide) (by decide) (by decide)
  have hfind : find_id_node timed 10 = some 0 := by decide
  unfold deg_foreach_ancestor_ID
  rw [hfind]
  cases fuel with
  | zero => decide
  | succ n =>
    show (run ancestor_step n (ancestor_step (traversal_begin timed 0))).status = Status.running
    rw [run_fixed _ _ hfix]
    decide


theorem run_stable (d : Direction) (t : Traversal) (n m : Nat) (hnm : n ≤ m)
    (h : (run (traversal_step d) n t).status = Status.returned) :
    run (traversal_step d) m t = run (traversal_step d) n t := by
  obtain ⟨k, rfl⟩ := Nat.exists_eq_add_of_le hnm
  rw [run_add, run_of_not_running d k _ (by rw [h]; simp)]

/-- C4: for a well-formed graph (cycles included) and a start entity found in
it, `deg_foreach_dependent_ID` terminates: with more fuel than the work left at
the first test of the outer loop the traversal has returned, its result no
longer depends on the fuel, and every pass of the inner loop either leaves the
inner loop or marks an operation that was not scheduled and goes on with
it. -/
theorem dependent_terminates (g : Depsgraph) (id s : Nat) (hwf : WellFormed g)
    (hs : find_id_node g id = some s) (fuel : Nat)
    (hfuel : work_left (traversal_begin g s) < fuel) :
    (deg_foreach_dependent_ID g id fuel).status = Status.returned ∧
    deg_foreach_dependent_ID g id fuel =
      deg_foreach_dependent_ID g id (work_left (traversal_begin g s) + 1) ∧
    ∀ k a, (deg_foreach_dependent_ID g id k).status = Status.running →
      (deg_foreach_dependent_ID g id k).op_node = some a →
      (deg_foreach_dependent_ID g id (k + 1)).op_node = none ∨
      ∃ b, ((deg_foreach_dependent_ID g id k).graph.op_mem b).scheduled = false ∧
        ((deg_foreach_dependent_ID g id (k + 1)).graph.op_mem b).scheduled = true ∧
        (deg_foreach_dependent_ID g id (k + 1)).op_node = some b := by
  refine ⟨dependent_returns hwf hs fuel hfuel, ?_, fun k a hrun ha => ?_⟩
  · have h1 := dependent_returns hwf hs (work_left (traversal_begin g s) + 1) (Nat.lt_succ_self _)
    rw [(dependent_inv hwf hs _).1] at h1 ⊢
    rw [(dependent_inv hwf hs _).1]
    exact run_stable _ _ _ _ hfuel h1
  · have hstep : deg_foreach_dependent_ID g id (k + 1) =
        dependent_step (deg_foreach_dependent_ID g id k) := by
      unfold deg_foreach_dependent_ID
      rw [hs]
      exact run_succ _ _ _
    rw [hstep]
    rcases dependent_pass _ a hrun ha with h | h
    · rw [← hstep] at h
      exact absurd h (dependent_inv hwf hs (k + 1)).2.status_defined
    · exact h

/-- C4 on the two-entity cycle A.op → B.op → A.op, queried from A. -/
theorem dependent_terminates_witness :
    WellFormed cycle ∧ find_id_node cycle 10 = some 0 ∧
    work_left (traversal_begin cycle 0) < 5 ∧
    (deg_foreach_dependent_ID cycle 10 5).calls = [11] ∧
    ((deg_foreach_dependent_ID cycle 10 5).status = Status.returned ∧
    deg_foreach_dependent_ID cycle 10 5 =
      deg_foreach_dependent_ID cycle 10 (work_left (traversal_begin cycle 0) + 1) ∧
    ∀ k a, (deg_foreach_dependent_ID cycle 10 k).status = Status.running →
      (deg_foreach_dependent_ID cycle 10 k).op_node = some a →
      (deg_foreach_dependent_ID cycle 10 (k + 1)).op_node = none ∨
      ∃ b, ((deg_foreach_dependent_ID cycle 10 k).graph.op_mem b).scheduled = false ∧
        ((deg_foreach_dependent_ID cycle 10 (k + 1)).graph.op_mem b).scheduled = true ∧
        (deg_foreach_dependent_ID cycle 10 (k + 1)).op_node = some b) :=
  ⟨by decide, by decide, by decide, by decide,
    dependent_terminates cycle 10 0 (by decide) (by decide) 5 (by decide)⟩

/-- C5: for a well-formed graph, the log of identities passed to the callback
by `deg_foreach_dependent_ID`, and by `deg_foreach_ancestor_ID`, holds no
identity twice, at every point of the run (after any number of steps). -/
theorem calls_at_most_once (g : Depsgraph) (id : Nat) (hwf : WellFormed g) (fuel : Nat) :
    (deg_foreach_dependent_ID g id fuel).calls.Nodup ∧
    (deg_foreach_ancestor_ID g id fuel).calls.Nodup := by
  cases hs : find_id_node g id with
  | none =>
    unfold deg_foreach_dependent_ID deg_foreach_ancestor_ID
    rw [hs]
    exact ⟨List.nodup_nil, List.nodup_nil⟩
  | some s =>
    exact ⟨(dependent_inv hwf hs fuel).2.calls_nodup, (ancestor_inv hwf hs fuel).2.calls_nodup⟩

/-- C5 on the diamond A → B, A → C, B → D, C → D: the forward query from A
reports C, D, B, each once. -/
theorem calls_at_most_once_witness :
    WellFormed diamond ∧
    (deg_foreach_dependent_ID diamond 10 12).calls = [12, 13, 11] ∧
    (deg_foreach_dependent_ID diamond 10 12).status = Status.returned ∧
    ((deg_foreach_dependent_ID diamond 10 12).calls.Nodup ∧
      (deg_foreach_ancestor_ID diamond 10 12).calls.Nodup) :=
  ⟨by decide, by decide, by decide, calls_at_most_once diamond 10 (by decide) 12⟩

/-- C6: for a well-formed graph and a start entity found in it (whether or not
it owns an operation), after any number of steps of `deg_foreach_dependent_ID`
and of `deg_foreach_ancestor_ID` the start identity is not in the log of
callback calls, also when relations lead from the operations of the start
entity back to them; and the marker `DEG_NODE_VISITED` of the start entity
node, set by the seeding, is set at every point of the call. -/
theorem start_identity_never_reported (g : Depsgraph) (id s : Nat) (hwf : WellFormed g)
    (hs : find_id_node g id = some s) (fuel : Nat) :
    (id ∉ (deg_foreach_dependent_ID g id fuel).calls ∧
      (g.id_mem s).id_orig ∉ (deg_foreach_dependent_ID g id fuel).calls ∧
      ((deg_foreach_dependent_ID g id fuel).graph.id_mem s).custom_flags
        &&& DEG_NODE_VISITED ≠ 0) ∧
    (id ∉ (deg_foreach_ancestor_ID g id fuel).calls ∧
      (g.id_mem s).id_orig ∉ (deg_foreach_ancestor_ID g id fuel).calls ∧
      ((deg_foreach_ancestor_ID g id fuel).graph.id_mem s).custom_flags
        &&& DEG_NODE_VISITED ≠ 0) := by
  have hsn := (hwf.find hs).1
  have hid := (hwf.find hs).2
  have key : ∀ (d : Direction) (t : Traversal), Inv d g s t →
      id ∉ t.calls ∧ (g.id_mem s).id_orig ∉ t.calls ∧
        (t.graph.id_mem s).custom_flags &&& DEG_NODE_VISITED ≠ 0 := by
    intro d t hi
    have hno : id ∉ t.calls := by
      intro hc
      obtain ⟨a, ha, hne, he⟩ := hi.calls_sound id hc
      have hal := hwf.reach_listed d hsn ha
      exact hne (hwf.ids_distinct (hwf.owner_listed hal) hsn (he.trans hid.symm))
    exact ⟨hno, hid ▸ hno, hi.start_visited⟩
  exact ⟨key _ _ (dependent_inv hwf hs fuel).2, key _ _ (ancestor_inv hwf hs fuel).2⟩

/-- C6 on the two-entity cycle A.op → B.op → A.op queried from A, whose
operation is reached again through B: only B is reported, in both
directions. -/
theorem start_identity_never_reported_witness :
    WellFormed cycle ∧ find_id_node cycle 10 = some 0 ∧ Owned cycle 0 0 ∧
    (deg_foreach_dependent_ID cycle 10 5).status = Status.returned ∧
    (deg_foreach_dependent_ID cycle 10 5).calls = [11] ∧
    (deg_foreach_ancestor_ID cycle 10 5).status = Status.returned ∧
    (deg_foreach_ancestor_ID cycle 10 5).calls = [11] ∧
    ((10 ∉ (deg_foreach_dependent_ID cycle 10 5).calls ∧
      (cycle.id_mem 0).id_orig ∉ (deg_foreach_dependent_ID cycle 10 5).calls ∧
      ((deg_foreach_dependent_ID cycle 10 5).graph.id_mem 0).custom_flags
        &&& DEG_NODE_VISITED ≠ 0) ∧
    (10 ∉ (deg_foreach_ancestor_ID cycle 10 5).calls ∧
      (cycle.id_mem 0).id_orig ∉ (deg_foreach_ancestor_ID cycle 10 5).calls ∧
      ((deg_foreach_ancestor_ID cycle 10 5).graph.id_mem 0).custom_flags
        &&& DEG_NODE_VISITED ≠ 0)) :=
  ⟨by decide, by decide, ⟨0, by decide, by decide⟩, by decide, by decide, by decide, by decide,
    start_identity_never_reported cycle 10 0 (by decide) (by decide) 5⟩

/-- C7: when the lookup of the start entity finds no node, both directional
queries return at once: no callback call, no undefined operation, and the graph
with all its markers is the one passed in. -/
theorem not_found_is_noop (g : Depsgraph) (id : Nat) (fuel : Nat)
    (h : find_id_node g id = none) :
    (deg_foreach_dependent_ID g id fuel).calls = [] ∧
    (deg_foreach_dependent_ID g id fuel).status = Status.returned ∧
    (deg_foreach_dependent_ID g id fuel).graph = g ∧
    (deg_foreach_ancestor_ID g id fuel).calls = [] ∧
    (deg_foreach_ancestor_ID g id fuel).status = Status.returned ∧
    (deg_foreach_ancestor_ID g id fuel).graph = g := by
  unfold deg_foreach_dependent_ID deg_foreach_ancestor_ID
  rw [h]
  exact ⟨rfl, rfl, rfl, rfl, rfl, rfl⟩

/-- C7 on the chain graph, queried for the identity 99 that no node carries;
the marker found set on B.op stays set. -/
theorem not_found_is_noop_witness :
    find_id_node chain 99 = none ∧
    ((deg_foreach_dependent_ID chain 99 9).graph.op_mem 1).scheduled = true ∧
    ((deg_foreach_dependent_ID chain 99 9).calls = [] ∧
    (deg_foreach_dependent_ID chain 99 9).status = Status.returned ∧
    (deg_foreach_dependent_ID chain 99 9).graph = chain ∧
    (deg_foreach_ancestor_ID chain 99 9).calls = [] ∧
    (deg_foreach_ancestor_ID chain 99 9).status = Status.returned ∧
    (deg_foreach_ancestor_ID chain 99 9).graph = chain) :=
  ⟨by decide, by decide, not_found_is_noop chain 99 9 (by decide)⟩

theorem find_id_node_congr {g g' : Depsgraph} (h : SameTopology g g') (id : Nat) :
    find_id_node g' id = find_id_node g id := by
  unfold find_id_node
  rw [h.id_hash]

theorem same_log_of_same_topology_run (d : Direction) {g g' : Depsgraph} (hwf : WellFormed g)
    (ht : SameTopology g g') {s : Nat} (hs : s ∈ g.id_nodes) (fuel : Nat) :
    (run (traversal_step d) fuel (traversal_begin g' s)).calls =
      (run (traversal_step d) fuel (traversal_begin g s)).calls ∧
    (run (traversal_step d) fuel (traversal_begin g' s)).status =
      (run (traversal_step d) fuel (traversal_begin g s)).status := by
  have := (Sim.sim_begin ht s).sim_run hwf hs (Inv.inv_begin d) fuel
  exact ⟨this.calls, this.status⟩

theorem dependent_same_topology (g : Depsgraph) (id : Nat) (fuel : Nat) :
    SameTopology g (deg_foreach_dependent_ID g id fuel).graph := by
  unfold deg_foreach_dependent_ID
  split
  · exact SameTopology.refl _
  · rw [run_dependent_step]
    exact ((StartInv.start_begin g _).start_run Direction.forward fuel).topo

theorem ancestor_same_topology (g : Depsgraph) (id : Nat) (fuel : Nat) :
    SameTopology g (deg_foreach_ancestor_ID g id fuel).graph := by
  unfold deg_foreach_ancestor_ID
  split
  · exact SameTopology.refl _
  · rw [run_ancestor_step]
    exact ((StartInv.start_begin g _).start_run Direction.backward fuel).topo

theorem same_log_of_same_topology {g g' : Depsgraph} (hwf : WellFormed g)
    (ht : SameTopology g g') (id : Nat) (fuel : Nat) :
    ((deg_foreach_dependent_ID g' id fuel).calls = (deg_foreach_dependent_ID g id fuel).calls ∧
      (deg_foreach_dependent_ID g' id fuel).status =
        (deg_foreach_dependent_ID g id fuel).status) ∧
    ((deg_foreach_ancestor_ID g' id fuel).calls = (deg_foreach_ancestor_ID g id fuel).calls ∧
      (deg_foreach_ancestor_ID g' id fuel).status =
        (deg_foreach_ancestor_ID g id fuel).status) := by
  unfold deg_foreach_dependent_ID deg_foreach_ancestor_ID
  rw [find_id_node_congr ht id]
  cases hs : find_id_node g id with
  | none => exact ⟨⟨rfl, rfl⟩, ⟨rfl, rfl⟩⟩
  | some s =>
    dsimp only
    rw [run_dependent_step, run_ancestor_step]
    exact ⟨same_log_of_same_topology_run _ hwf ht (hwf.find hs).1 fuel,
      same_log_of_same_topology_run _ hwf ht (hwf.find hs).1 fuel⟩

/-- C8: over a well-formed topology, the log of a directional query (and
whether it has returned) does not depend on the markers found at the call: two
graph states with the same topology give the same sequence of callback calls
for the same fuel; in particular a second call, run on the graph state that a
first call (of either query, stopped anywhere) left behind, repeats the log of
a call on the original state. -/
theorem marker_independence (g g' : Depsgraph) (id : Nat) (hwf : WellFormed g)
    (ht : SameTopology g g') (fuel : Nat) :
    ((deg_foreach_dependent_ID g' id fuel).calls = (deg_foreach_dependent_ID g id fuel).calls ∧
      (deg_foreach_dependent_ID g' id fuel).status =
        (deg_foreach_dependent_ID g id fuel).status) ∧
    ((deg_foreach_ancestor_ID g' id fuel).calls = (deg_foreach_ancestor_ID g id fuel).calls ∧
      (deg_foreach_ancestor_ID g' id fuel).status =
        (deg_foreach_ancestor_ID g id fuel).status) ∧
    (∀ fuel1,
      (deg_foreach_dependent_ID (deg_foreach_dependent_ID g id fuel1).graph id fuel).calls =
        (deg_foreach_dependent_ID g id fuel).calls ∧
      (deg_foreach_ancestor_ID (deg_foreach_ancestor_ID g id fuel1).graph id fuel).calls =
        (deg_foreach_ancestor_ID g id fuel).calls) := by
  refine ⟨(same_log_of_same_topology hwf ht id fuel).1, (same_log_of_same_topology hwf ht id fuel).2,
    fun fuel1 => ⟨?_, ?_⟩⟩
  · exact (same_log_of_same_topology hwf (dependent_same_topology g id fuel1) id fuel).1.1
  · exact (same_log_of_same_topology hwf (ancestor_same_topology g id fuel1) id fuel).2.1

/-- C8 on the chain graph (in which B.op is found scheduled) against its
state after the marker reset. -/
theorem marker_independence_witness :
    WellFormed chain ∧ SameTopology chain (deg_foreach_clear_flags chain) ∧
    (chain.op_mem 1).scheduled ≠ ((deg_foreach_clear_flags chain).op_mem 1).scheduled ∧
    (deg_foreach_dependent_ID chain 10 9).calls = [11, 12] ∧
    (deg_foreach_dependent_ID (deg_foreach_dependent_ID chain 10 9).graph 10 9).calls
      = [11, 12] ∧
    (((deg_foreach_dependent_ID (deg_foreach_clear_flags chain) 10 9).calls =
        (deg_foreach_dependent_ID chain 10 9).calls ∧
      (deg_foreach_dependent_ID (deg_foreach_clear_flags chain) 10 9).status =
        (deg_foreach_dependent_ID chain 10 9).status) ∧
    ((deg_foreach_ancestor_ID (deg_foreach_clear_flags chain) 10 9).calls =
        (deg_foreach_ancestor_ID chain 10 9).calls ∧
      (deg_foreach_ancestor_ID (deg_foreach_clear_flags chain) 10 9).status =
        (deg_foreach_ancestor_ID chain 10 9).status) ∧
    (∀ fuel1,
      (deg_foreach_dependent_ID (deg_foreach_dependent_ID chain 10 fuel1).graph 10 9).calls =
        (deg_foreach_dependent_ID chain 10 9).calls ∧
      (deg_foreach_ancestor_ID (deg_foreach_ancestor_ID chain 10 fuel1).graph 10 9).calls =
        (deg_foreach_ancestor_ID chain 10 9).calls)) :=
  ⟨by decide, clear_flags_topo chain, by decide, by decide, by decide,
    marker_independence chain (deg_foreach_clear_flags chain) 10 (by decide)
      (clear_flags_topo chain) 9⟩


theorem foreach_id_fold (l : List Nat) (t : Traversal) :
    (l.foldl (fun t id_node =>
        { t with calls := t.calls ++ [(t.graph.id_mem id_node).id_orig] }) t) =
      { t with calls := t.calls ++ l.map (fun n => (t.graph.id_mem n).id_orig) } := by
  induction l generalizing t with
  | nil => simp
  | cons n l ih => simp [ih]

/-- C9: `deg_foreach_id` calls the callback once per entry of `id_nodes`, in
order, with the identity of that entity node; it returns, leaves the graph
with all its markers as it was, and its log does not depend on the markers.
Hence an identity is reported iff a listed entity node carries it, and when
the listed nodes are distinct and carry distinct identities no identity is
reported twice. -/
theorem foreach_id_reports_every_entity (g : Depsgraph) :
    (deg_foreach_id g).calls = g.id_nodes.map (fun n => (g.id_mem n).id_orig) ∧
    (deg_foreach_id g).graph = g ∧
    (deg_foreach_id g).status = Status.returned ∧
    (∀ g', SameTopology g g' → (deg_foreach_id g').calls = (deg_foreach_id g).calls) ∧
    (∀ e, e ∈ (deg_foreach_id g).calls ↔ ∃ n ∈ g.id_nodes, (g.id_mem n).id_orig = e) ∧
    (g.id_nodes.Nodup →
      (∀ n ∈ g.id_nodes, ∀ m ∈ g.id_nodes,
        (g.id_mem n).id_orig = (g.id_mem m).id_orig → n = m) →
      (deg_foreach_id g).calls.Nodup) := by
  have hc : ∀ g : Depsgraph,
      (deg_foreach_id g).calls = g.id_nodes.map (fun n => (g.id_mem n).id_orig) := by
    intro g
    unfold deg_foreach_id
    rw [foreach_id_fold]
    simp [returned_at_once]
  refine ⟨hc g, ?_, ?_, ?_, ?_, ?_⟩
  · unfold deg_foreach_id
    rw [foreach_id_fold]
    rfl
  · unfold deg_foreach_id
    rw [foreach_id_fold]
    rfl
  · intro g' ht
    rw [hc g', hc g, ht.id_nodes]
    exact List.map_congr_left (fun n _ => ht.id_orig n)
  · intro e
    rw [hc g, List.mem_map]
  · intro hnd hinj
    rw [hc g]
    exact List.Nodup.map_on hinj hnd

/-- C9 on the chain graph. -/
theorem foreach_id_reports_every_entity_witness :
    (deg_foreach_id chain).calls = [10, 11, 12] ∧
    ((deg_foreach_id chain).calls = chain.id_nodes.map (fun n => (chain.id_mem n).id_orig) ∧
    (deg_foreach_id chain).graph = chain ∧
    (deg_foreach_id chain).status = Status.returned ∧
    (∀ g', SameTopology chain g' → (deg_foreach_id g').calls = (deg_foreach_id chain).calls) ∧
    (∀ e, e ∈ (deg_foreach_id chain).calls ↔
      ∃ n ∈ chain.id_nodes, (chain.id_mem n).id_orig = e) ∧
    (chain.id_nodes.Nodup →
      (∀ n ∈ chain.id_nodes, ∀ m ∈ chain.id_nodes,
        (chain.id_mem n).id_orig = (chain.id_mem m).id_orig → n = m) →
      (deg_foreach_id chain).calls.Nodup)) :=
  ⟨by decide, foreach_id_reports_every_entity chain⟩

/-- C10: after `deg_foreach_clear_flags`, every listed operation node has
`scheduled = false` and every listed entity node has `custom_flags = 0`;
nothing else is written: the node records differ from the ones before at most
in these two fields of the listed nodes, and the component nodes, the two node
lists and the identity hash are the same. -/
theorem clear_flags_resets_markers_only (g : Depsgraph) :
    (∀ a ∈ g.operations, ((deg_foreach_clear_flags g).op_mem a).scheduled = false) ∧
    (∀ n ∈ g.id_nodes, ((deg_foreach_clear_flags g).id_mem n).custom_flags = 0) ∧
    (∀ a, (deg_foreach_clear_flags g).op_mem a =
      if a ∈ g.operations then { g.op_mem a with scheduled := false } else g.op_mem a) ∧
    (∀ n, (deg_foreach_clear_flags g).id_mem n =
      if n ∈ g.id_nodes then { g.id_mem n with custom_flags := 0 } else g.id_mem n) ∧
    (deg_foreach_clear_flags g).comp_mem = g.comp_mem ∧
    (deg_foreach_clear_flags g).operations = g.operations ∧
    (deg_foreach_clear_flags g).id_nodes = g.id_nodes ∧
    (deg_foreach_clear_flags g).id_hash = g.id_hash ∧
    SameTopology g (deg_foreach_clear_flags g) := by
  obtain ⟨h1, h2, h3, h4, h5, h6⟩ := clear_flags_spec g
  refine ⟨fun a ha => ?_, fun n hn => ?_, h1, h2, h3, h4, h5, h6, clear_flags_topo g⟩
  · rw [h1 a, if_pos ha]
  · rw [h2 n, if_pos hn]

/-- C10 on the chain graph, in which B.op is found scheduled. -/
theorem clear_flags_resets_markers_only_witness :
    (chain.op_mem 1).scheduled = true ∧
    ((deg_foreach_clear_flags chain).op_mem 1).scheduled = false ∧
    ((deg_foreach_clear_flags chain).op_mem 1).outlinks = (chain.op_mem 1).outlinks ∧
    SameTopology chain (deg_foreach_clear_flags chain) :=
  ⟨by decide, by decide, by decide, (clear_flags_resets_markers_only chain).2.2.2.2.2.2.2.2⟩


/-! ### The backward traversal is the forward traversal of the reversed graph -/

theorem reversed_set_scheduled (g : Depsgraph) (b : Nat) (v : Bool) :
    reversed (g.set_scheduled b v) = (reversed g).set_scheduled b v := by
  unfold reversed Depsgraph.set_scheduled
  congr 1
  funext a
  dsimp only
  split <;> rfl

theorem reversed_set_custom_flags (g : Depsgraph) (n v : Nat) :
    reversed (g.set_custom_flags n v) = (reversed g).set_custom_flags n v := rfl

theorem reversed_foldl_set_scheduled (l : List Nat) (v : Bool) (g : Depsgraph) :
    reversed (l.foldl (fun g x => g.set_scheduled x v) g) =
      l.foldl (fun g x => g.set_scheduled x v) (reversed g) := by
  induction l generalizing g with
  | nil => rfl
  | cons x l ih => rw [List.foldl_cons, List.foldl_cons, ih, reversed_set_scheduled]

theorem reversed_foldl_set_custom_flags (l : List Nat) (v : Nat) (g : Depsgraph) :
    reversed (l.foldl (fun g x => g.set_custom_flags x v) g) =
      l.foldl (fun g x => g.set_custom_flags x v) (reversed g) := by
  induction l generalizing g with
  | nil => rfl
  | cons x l ih => rw [List.foldl_cons, List.foldl_cons, ih, reversed_set_custom_flags]

theorem reversed_clear_flags (g : Depsgraph) :
    deg_foreach_clear_flags (reversed g) = reversed (deg_foreach_clear_flags g) := by
  unfold deg_foreach_clear_flags
  dsimp only
  rw [reversed_foldl_set_custom_flags, reversed_foldl_set_scheduled]
  have h1 : (reversed g).operations = g.operations := rfl
  have h2 : ∀ g' : Depsgraph, (reversed g').id_nodes = g'.id_nodes := fun _ => rfl
  rw [h1, ← reversed_foldl_set_scheduled, h2]

theorem reversed_schedule_component (ops : List Nat) (st : Depsgraph × TraversalQueue) :
    schedule_component ops (reversed st.1, st.2) =
      (reversed (schedule_component ops st).1, (schedule_component ops st).2) := by
  rw [schedule_component_eq, schedule_component_eq]
  dsimp only
  rw [reversed_foldl_set_scheduled]

theorem reversed_schedule_components (comps : List Nat) (st : Depsgraph × TraversalQueue) :
    comps.foldl (fun st c => schedule_component (st.1.comp_mem c).operations st)
        (reversed st.1, st.2) =
      (reversed (comps.foldl
          (fun st c => schedule_component (st.1.comp_mem c).operations st) st).1,
        (comps.foldl (fun st c => schedule_component (st.1.comp_mem c).operations st) st).2) := by
  induction comps generalizing st with
  | nil => rfl
  | cons c comps ih =>
    rw [List.foldl_cons, List.foldl_cons]
    have : (reversed st.1, st.2).1.comp_mem c = st.1.comp_mem c := rfl
    rw [this, reversed_schedule_component, ih]

theorem reversed_schedule_id_node (g : Depsgraph) (s : Nat) :
    schedule_id_node (reversed g) s =
      (reversed (schedule_id_node g s).1, (schedule_id_node g s).2) := by
  unfold schedule_id_node
  exact reversed_schedule_components _ (g, [])

theorem traversal_begin_reversed (g : Depsgraph) (s : Nat) :
    traversal_begin (reversed g) s = mirror (traversal_begin g s) := by
  unfold traversal_begin
  dsimp only
  rw [reversed_clear_flags, reversed_schedule_id_node]
  rfl

theorem visit_owner_mirror (t : Traversal) (a : Nat) :
    visit_owner (mirror t) a = mirror (visit_owner t a) := by
  unfold visit_owner
  dsimp only
  show (if ((t.graph.id_mem (t.graph.comp_mem (t.graph.op_mem a).owner).owner).custom_flags
      &&& DEG_NODE_VISITED = 0) then _ else _) = _
  split <;> rfl

theorem follow_swap (rel : Relation) (h : rel.«from».cls = NodeClass.OPERATION) :
    Direction.forward.follow rel.swap = Direction.backward.follow rel := by
  simp [Direction.follow, Relation.swap, h]

theorem schedule_all_mirror (rels : List Relation) (t : Traversal)
    (h : ∀ rel ∈ rels, rel.«from».cls = NodeClass.OPERATION) :
    schedule_all Direction.forward (rels.map Relation.swap) (mirror t) =
      mirror (schedule_all Direction.backward rels t) := by
  induction rels generalizing t with
  | nil => rfl
  | cons rel rels ih =>
    have h' : ∀ r ∈ rels, r.«from».cls = NodeClass.OPERATION :=
      fun r hr => h r (List.mem_cons_of_mem _ hr)
    rw [List.map_cons]
    unfold schedule_all
    rw [follow_swap rel (h rel (List.mem_cons_self _ _))]
    split
    · next b hb =>
      have hs : ((mirror t).graph.op_mem b).scheduled = (t.graph.op_mem b).scheduled := rfl
      rw [hs]
      split
      · have := ih { t with queue := b :: t.queue, graph := t.graph.set_scheduled b true } h'
        rw [← this]
        unfold mirror
        dsimp only
        rw [reversed_set_scheduled]
      · exact ih t h'
    · exact ih t h'
    · rfl


/-! ### The cases of a step -/

theorem traversal_step_return (d : Direction) (t : Traversal)
    (h1 : t.status = Status.running) (h2 : t.op_node = none) (h3 : t.queue = []) :
    traversal_step d t = { t with status := Status.returned } := by
  unfold traversal_step
  split
  · split
    · split
      · rfl
      · next hq => rw [h3] at hq; cases hq
    · next hc => rw [h2] at hc; cases hc
  · next hne => exact absurd h1 (hne · )

theorem traversal_step_pop (d : Direction) (t : Traversal) {a : Nat} {rest : List Nat}
    (h1 : t.status = Status.running) (h2 : t.op_node = none) (h3 : t.queue = a :: rest) :
    traversal_step d t = { t with queue := rest, op_node := some a } := by
  unfold traversal_step
  split
  · split
    · split
      · next hq => rw [h3] at hq; cases hq
      · next hq =>
        rw [h3] at hq
        cases hq
        rfl
    · next hc => rw [h2] at hc; cases hc
  · next hne => exact absurd h1 (hne · )

theorem traversal_step_pass (d : Direction) (t : Traversal) {a : Nat}
    (h1 : t.status = Status.running) (h2 : t.op_node = some a) :
    traversal_step d t = inner_pass d t a := by
  unfold traversal_step
  split
  · split
    · next hc => rw [h2] at hc; cases hc
    · next hc =>
      rw [h2] at hc
      cases hc
      rfl
  · next hne => exact absurd h1 (hne · )

theorem inner_pass_mirror (t : Traversal) (a : Nat)
    (h : ∀ rel ∈ (t.graph.op_mem a).inlinks, rel.«from».cls = NodeClass.OPERATION) :
    inner_pass Direction.forward (mirror t) a = mirror (inner_pass Direction.backward t a) := by
  unfold inner_pass
  dsimp only
  rw [visit_owner_mirror]
  have hl : Direction.forward.links ((mirror (visit_owner t a)).graph.op_mem a) =
      (Direction.backward.links ((visit_owner t a).graph.op_mem a)).map Relation.swap := rfl
  have hin : ∀ rel ∈ Direction.backward.links ((visit_owner t a).graph.op_mem a),
      rel.«from».cls = NodeClass.OPERATION := by
    intro rel hr
    rw [visit_owner_op_mem] at hr
    exact h rel hr
  rw [hl]
  generalize Direction.backward.links ((visit_owner t a).graph.op_mem a) = links at hin
  match links, hin with
  | [], _ => rfl
  | [rel], hin =>
    dsimp only [List.map]
    rw [follow_swap rel (hin rel (List.mem_singleton_self _))]
    split
    · next b hb =>
      have hs : ((mirror (visit_owner t a)).graph.op_mem b).scheduled =
          ((visit_owner t a).graph.op_mem b).scheduled := rfl
      rw [hs]
      split
      · unfold mirror
        dsimp only
        rw [reversed_set_scheduled]
      · rfl
    · rfl
    · rfl
  | r1 :: r2 :: rest, hin =>
    dsimp only [List.map]
    have := schedule_all_mirror (r1 :: r2 :: rest) (visit_owner t a) hin
    rw [List.map_cons, List.map_cons] at this
    rw [this]
    rfl

theorem traversal_step_mirror (t : Traversal)
    (h : ∀ a, t.op_node = some a →
      ∀ rel ∈ (t.graph.op_mem a).inlinks, rel.«from».cls = NodeClass.OPERATION) :
    traversal_step Direction.forward (mirror t) =
      mirror (traversal_step Direction.backward t) := by
  by_cases h1 : t.status = Status.running
  · cases h2 : t.op_node with
    | none =>
      cases h3 : t.queue with
      | nil =>
        rw [traversal_step_return _ t h1 h2 h3, traversal_step_return _ (mirror t) h1 h2 h3]
        rfl
      | cons a rest =>
        rw [traversal_step_pop _ t h1 h2 h3, traversal_step_pop _ (mirror t) h1 h2 h3]
        rfl
    | some a =>
      rw [traversal_step_pass _ t h1 h2, traversal_step_pass _ (mirror t) h1 h2]
      exact inner_pass_mirror t a (h a h2)
  · rw [traversal_step_of_not_running _ t h1, traversal_step_of_not_running _ (mirror t) h1]

theorem run_mirror {g : Depsgraph} {s : Nat} (hwf : WellFormed g) (hs : s ∈ g.id_nodes)
    (hops : ∀ a ∈ g.operations, ∀ rel ∈ (g.op_mem a).inlinks,
      rel.«from».cls = NodeClass.OPERATION)
    (n : Nat) (t : Traversal) (hi : Inv Direction.backward g s t) :
    run (traversal_step Direction.forward) n (mirror t) =
      mirror (run (traversal_step Direction.backward) n t) := by
  induction n generalizing t with
  | zero => rfl
  | succ n ih =>
    show run (traversal_step Direction.forward) n (traversal_step Direction.forward (mirror t)) =
      mirror (run (traversal_step Direction.backward) n (traversal_step Direction.backward t))
    rw [traversal_step_mirror t, ih _ (hi.inv_step hwf hs)]
    intro a ha rel hr
    have hla := hwf.reach_listed Direction.backward hs (hi.cur_reach a ha)
    rw [hi.topo.op_inlinks a] at hr
    exact hops a hla rel hr


/-! ### The worklist after the branching loop -/

theorem first_occurrences_filter (p : Nat → Bool) (l : List Nat) :
    first_occurrences (l.filter p) = (first_occurrences l).filter p := by
  induction l with
  | nil => rfl
  | cons x xs ih =>
    by_cases hp : p x = true
    · rw [List.filter_cons_of_pos hp]
      simp only [first_occurrences]
      rw [List.filter_cons_of_pos hp, ih, List.filter_filter, List.filter_filter]
      congr 1
      apply List.filter_congr
      intro y _
      exact Bool.and_comm _ _
    · rw [List.filter_cons_of_neg hp]
      simp only [first_occurrences]
      rw [List.filter_cons_of_neg hp, ih, List.filter_filter]
      apply List.filter_congr
      intro y _
      by_cases hy : y = x
      · subst hy
        simp [hp]
      · simp [hy]

theorem mem_first_occurrences (l : List Nat) (x : Nat) :
    x ∈ first_occurrences l ↔ x ∈ l := by
  induction l with
  | nil => simp [first_occurrences]
  | cons y ys ih =>
    simp only [first_occurrences, List.mem_cons, List.mem_filter, ih, decide_eq_true_eq]
    by_cases h : x = y <;> simp [h]

theorem first_occurrences_nodup (l : List Nat) : (first_occurrences l).Nodup := by
  induction l with
  | nil => exact List.nodup_nil
  | cons y ys ih =>
    simp only [first_occurrences]
    refine List.nodup_cons.mpr ⟨?_, ih.filter _⟩
    simp [List.mem_filter]

theorem targets_cons_operation (d : Direction) (rel : Relation) (rels : List Relation)
    {b : Nat} (h : d.follow rel = Target.operation b) :
    d.targets (rel :: rels) = b :: d.targets rels := by
  simp [Direction.targets, List.filterMap_cons, h]

theorem targets_cons_not_operation (d : Direction) (rel : Relation) (rels : List Relation)
    (h : d.follow rel = Target.not_operation) :
    d.targets (rel :: rels) = d.targets rels := by
  simp [Direction.targets, List.filterMap_cons, h]

theorem mem_targets (d : Direction) (rels : List Relation) (b : Nat) :
    b ∈ d.targets rels ↔ ∃ rel ∈ rels, d.follow rel = Target.operation b := by
  simp only [Direction.targets, List.mem_filterMap]
  constructor
  · rintro ⟨rel, hr, hb⟩
    refine ⟨rel, hr, ?_⟩
    split at hb
    · next h =>
      cases hb
      exact h
    · cases hb
  · rintro ⟨rel, hr, hb⟩
    exact ⟨rel, hr, by simp [hb]⟩

theorem fresh_targets_set_scheduled (d : Direction) (g : Depsgraph) (b : Nat)
    (rels : List Relation) :
    fresh_targets d (g.set_scheduled b true) rels =
      (fresh_targets d g rels).filter (fun y => decide (y ≠ b)) := by
  unfold fresh_targets
  rw [← first_occurrences_filter, List.filter_filter]
  congr 1
  apply List.filter_congr
  intro y _
  simp only [set_scheduled_op_mem]
  by_cases hy : y = b <;> simp [hy]

theorem schedule_all_queue (d : Direction) (rels : List Relation) (t : Traversal)
    (hv : ∀ rel ∈ rels, d.follow rel ≠ Target.invalid) :
    (schedule_all d rels t).queue = (fresh_targets d t.graph rels).reverse ++ t.queue := by
  induction rels generalizing t with
  | nil => rfl
  | cons rel rels ih =>
    have hv' : ∀ r ∈ rels, d.follow r ≠ Target.invalid :=
      fun r hr => hv r (List.mem_cons_of_mem _ hr)
    unfold schedule_all
    split
    · next b hb =>
      split
      · next hs =>
        rw [ih _ hv']
        dsimp only
        rw [fresh_targets_set_scheduled]
        unfold fresh_targets
        rw [targets_cons_operation d rel rels hb,
          List.filter_cons_of_pos (by simpa using hs)]
        simp only [first_occurrences, List.reverse_cons, List.append_assoc, List.singleton_append]
      · next hs =>
        rw [ih _ hv']
        unfold fresh_targets
        rw [targets_cons_operation d rel rels hb,
          List.filter_cons_of_neg (by simpa using hs)]
    · next hb =>
      rw [ih _ hv']
      unfold fresh_targets
      rw [targets_cons_not_operation d rel rels hb]
    · next hb => exact absurd hb (hv rel (List.mem_cons_self _ _))

theorem targets_forward (rels : List Relation)
    (h : ∀ rel ∈ rels, rel.«to».cls = NodeClass.OPERATION) :
    Direction.forward.targets rels = rels.map (fun rel => rel.«to».addr) := by
  induction rels with
  | nil => rfl
  | cons rel rels ih =>
    have h1 : Direction.forward.follow rel = Target.operation rel.«to».addr := by
      simp [Direction.follow, h rel (List.mem_cons_self _ _)]
    rw [targets_cons_operation _ rel rels h1, ih (fun r hr => h r (List.mem_cons_of_mem _ hr)),
      List.map_cons]


/-! ### Every operation is visited at most once -/

theorem mem_fresh_targets (d : Direction) (g : Depsgraph) (rels : List Relation) (x : Nat) :
    x ∈ fresh_targets d g rels ↔
      (∃ rel ∈ rels, d.follow rel = Target.operation x) ∧ ¬ g.sched x := by
  unfold fresh_targets
  rw [mem_first_occurrences, List.mem_filter, mem_targets]
  simp [Depsgraph.sched]

theorem fresh_targets_nodup (d : Direction) (g : Depsgraph) (rels : List Relation) :
    (fresh_targets d g rels).Nodup :=
  first_occurrences_nodup _

theorem nodup_insert_fresh (X Y F : List Nat) (h : (X ++ Y).Nodup) (hF : F.Nodup)
    (hd : ∀ x ∈ F, x ∉ X ++ Y) : (X ++ (F ++ Y)).Nodup := by
  have hp : (X ++ (F ++ Y)).Perm (F ++ (X ++ Y)) := List.perm_append_comm_assoc X F Y
  rw [hp.nodup_iff, List.nodup_append]
  exact ⟨hF, h, fun x hx hx' => hd x hx hx'⟩

theorem known_of_some (seen : List Nat) (t : Traversal) {a : Nat} (h : t.op_node = some a) :
    known seen t = (seen ++ [a]) ++ t.queue := by
  simp [known, h]

theorem known_of_none (seen : List Nat) (t : Traversal) (h : t.op_node = none) :
    known seen t = seen ++ t.queue := by
  simp [known, h]

theorem inner_pass_chain (d : Direction) (t : Traversal) (a : Nat) {rel : Relation} {b : Nat}
    (hl : d.links (t.graph.op_mem a) = [rel]) (hf : d.follow rel = Target.operation b)
    (hs : ¬ t.graph.sched b) :
    inner_pass d t a =
      { visit_owner t a with
        graph := (visit_owner t a).graph.set_scheduled b true, op_node := some b } := by
  unfold inner_pass
  dsimp only
  rw [visit_owner_op_mem, hl]
  dsimp only
  rw [hf]
  dsimp only
  rw [if_pos (by simpa [Depsgraph.sched] using hs)]

theorem inner_pass_break (d : Direction) (t : Traversal) (a : Nat) {rel : Relation} {b : Nat}
    (hl : d.links (t.graph.op_mem a) = [rel]) (hf : d.follow rel = Target.operation b)
    (hs : t.graph.sched b) :
    inner_pass d t a = { visit_owner t a with op_node := none } := by
  unfold inner_pass
  dsimp only
  rw [visit_owner_op_mem, hl]
  dsimp only
  rw [hf]
  dsimp only
  rw [if_neg (by simpa [Depsgraph.sched] using hs)]

theorem inner_pass_branch (d : Direction) (t : Traversal) (a : Nat)
    (hl : (d.links (t.graph.op_mem a)).length ≠ 1) :
    inner_pass d t a =
      { schedule_all d (d.links (t.graph.op_mem a)) (visit_owner t a) with op_node := none } := by
  unfold inner_pass
  dsimp only
  rw [visit_owner_op_mem]
  split
  · next rel h =>
    rw [h] at hl
    exact absurd rfl hl
  · rfl

theorem Visits.visits_step {d : Direction} {g : Depsgraph} {s : Nat} {t : Traversal}
    {seen : List Nat} (hwf : WellFormed g) (hs : s ∈ g.id_nodes)
    (hd : ∀ a ∈ g.operations, ∀ rel ∈ d.links (g.op_mem a), d.follow rel ≠ Target.not_operation)
    (hi : Inv d g s t) (hv : Visits g seen t) (hrun : t.status = Status.running) :
    Visits g (seen ++ t.op_node.toList) (traversal_step d t) := by
  cases hc : t.op_node with
  | none =>
    rw [Option.toList, List.append_nil]
    cases hq : t.queue with
    | nil =>
      rw [traversal_step_return d t hrun hc hq]
      exact ⟨hv.nodup, hv.sched, hv.listed⟩
    | cons a rest =>
      rw [traversal_step_pop d t hrun hc hq]
      have hk : known seen { t with queue := rest, op_node := some a } = known seen t := by
        simp [known, hc, hq]
      exact ⟨hk ▸ hv.nodup, fun x hx => hv.sched x (hk ▸ hx), fun x hx => hv.listed x (hk ▸ hx)⟩
  | some a =>
    rw [traversal_step_pass d t hrun hc]
    show Visits g (seen ++ [a]) (inner_pass d t a)
    have hk := known_of_some seen t hc
    have hnd : ((seen ++ [a]) ++ t.queue).Nodup := hk ▸ hv.nodup
    have hsc : ∀ x ∈ (seen ++ [a]) ++ t.queue, t.graph.sched x := fun x hx => hv.sched x (hk ▸ hx)
    have hli : ∀ x ∈ (seen ++ [a]) ++ t.queue, x ∈ g.operations :=
      fun x hx => hv.listed x (hk ▸ hx)
    have hla : a ∈ g.operations := hwf.reach_listed d hs (hi.cur_reach a hc)
    have hlinks : d.links (t.graph.op_mem a) = d.links (g.op_mem a) := hi.topo.links d a
    by_cases hlen : (d.links (t.graph.op_mem a)).length = 1
    · obtain ⟨rel, hl⟩ := List.length_eq_one.mp hlen
      have hrel : rel ∈ d.links (g.op_mem a) := by
        rw [← hlinks, hl]
        exact List.mem_singleton_self _
      cases hf : d.follow rel with
      | operation b =>
        have hbl : b ∈ g.operations := hwf.edge_listed d hla ⟨rel, hrel, hf⟩
        by_cases hsb : t.graph.sched b
        · rw [inner_pass_break d t a hl hf hsb]
          have hk' : known (seen ++ [a]) { visit_owner t a with op_node := none } =
              (seen ++ [a]) ++ t.queue := by
            simp [known, visit_owner_queue]
          refine ⟨hk' ▸ hnd, fun x hx => ?_, fun x hx => hli x (hk' ▸ hx)⟩
          exact (visit_owner_sched t a x).mpr (hsc x (hk' ▸ hx))
        · rw [inner_pass_chain d t a hl hf hsb]
          have hk' : known (seen ++ [a]) { visit_owner t a with
              graph := (visit_owner t a).graph.set_scheduled b true, op_node := some b } =
              (seen ++ [a]) ++ ([b] ++ t.queue) := by
            simp [known, visit_owner_queue]
          have hb : ∀ x ∈ [b], x ∉ (seen ++ [a]) ++ t.queue := by
            intro x hx hx'
            rw [List.mem_singleton] at hx
            exact hsb (hx ▸ hsc x hx')
          refine ⟨?_, fun x hx => ?_, fun x hx => ?_⟩
          · rw [hk']
            exact nodup_insert_fresh _ _ _ hnd (List.nodup_singleton b) hb
          · rw [hk'] at hx
            show ((visit_owner t a).graph.set_scheduled b true).sched x
            rw [sched_set_scheduled, visit_owner_sched]
            simp only [List.mem_append, List.mem_singleton] at hx hsc
            rcases hx with hx | hx | hx
            · exact Or.inr (hsc x (Or.inl hx))
            · exact Or.inl hx
            · exact Or.inr (hsc x (Or.inr hx))
          · rw [hk'] at hx
            simp only [List.mem_append, List.mem_singleton] at hx hli
            rcases hx with hx | hx | hx
            · exact hli x (Or.inl hx)
            · exact hx ▸ hbl
            · exact hli x (Or.inr hx)
      | not_operation => exact absurd hf (hd a hla rel hrel)
      | invalid => exact absurd hf (hwf.follow_valid d hla hrel)
    · rw [inner_pass_branch d t a hlen]
      have hvalid : ∀ rel ∈ d.links (t.graph.op_mem a), d.follow rel ≠ Target.invalid := by
        intro rel hr
        rw [hlinks] at hr
        exact hwf.follow_valid d hla hr
      have hq := schedule_all_queue d _ (visit_owner t a) hvalid
      obtain ⟨-, p2, -⟩ := schedule_all_spec d _ (visit_owner t a) hvalid
      rw [visit_owner_queue] at hq
      have hk' : known (seen ++ [a])
          { schedule_all d (d.links (t.graph.op_mem a)) (visit_owner t a) with op_node := none } =
          (seen ++ [a]) ++
            ((fresh_targets d (visit_owner t a).graph (d.links (t.graph.op_mem a))).reverse ++
              t.queue) := by
        simp [known, hq]
      have hfresh : ∀ x ∈ (fresh_targets d (visit_owner t a).graph
          (d.links (t.graph.op_mem a))).reverse,
          (∃ rel ∈ d.links (t.graph.op_mem a), d.follow rel = Target.operation x) ∧
            ¬ t.graph.sched x := by
        intro x hx
        rw [List.mem_reverse, mem_fresh_targets, visit_owner_sched] at hx
        exact hx
      refine ⟨?_, fun x hx => ?_, fun x hx => ?_⟩
      · rw [hk']
        refine nodup_insert_fresh _ _ _ hnd
          (List.nodup_reverse.mpr (fresh_targets_nodup _ _ _)) ?_
        intro x hx hx'
        exact (hfresh x hx).2 (hsc x hx')
      · rw [hk'] at hx
        show (schedule_all d (d.links (t.graph.op_mem a)) (visit_owner t a)).graph.sched x
        rw [p2 x, visit_owner_sched]
        simp only [List.mem_append] at hx hsc
        rcases hx with hx | hx | hx
        · exact Or.inl (hsc x (Or.inl hx))
        · exact Or.inr (hfresh x hx).1
        · exact Or.inl (hsc x (Or.inr hx))
      · rw [hk'] at hx
        simp only [List.mem_append] at hx hli
        rcases hx with hx | hx | hx
        · exact hli x (Or.inl hx)
        · obtain ⟨rel, hr, hf⟩ := (hfresh x hx).1
          rw [hlinks] at hr
          exact hwf.edge_listed d hla ⟨rel, hr, hf⟩
        · exact hli x (Or.inr hx)


theorem mem_seeds (g : Depsgraph) (s x : Nat) : x ∈ seeds g s ↔ Owned g s x := by
  simp [seeds, Owned, List.mem_flatMap]

theorem WellFormed.seeds_nodup {g : Depsgraph} (hwf : WellFormed g) {s : Nat}
    (hs : s ∈ g.id_nodes) : (seeds g s).Nodup := by
  have h9 := hwf.2.2.2.2.2.2.2.2 s hs
  unfold seeds
  rw [List.nodup_flatMap]
  refine ⟨h9.2, ?_⟩
  refine List.Pairwise.imp_of_mem ?_ h9.1
  intro c c' hc hc' hne x hx hx'
  have h1 := ((hwf.1 s hs c hc).2 x hx).1
  have h2 := ((hwf.1 s hs c' hc').2 x hx').1
  exact hne (h1.symm.trans h2)

theorem Visits.visits_begin {g : Depsgraph} (hwf : WellFormed g) {s : Nat}
    (hs : s ∈ g.id_nodes) : Visits g [] (traversal_begin g s) := by
  have hk : known [] (traversal_begin g s) = seeds g s := by
    rw [known_of_none _ _ rfl, traversal_begin_queue]
    rfl
  refine ⟨hk ▸ hwf.seeds_nodup hs, fun x hx => ?_, fun x hx => ?_⟩
  · rw [hk, mem_seeds] at hx
    exact (Inv.inv_begin Direction.forward).seeds_sched x hx
  · rw [hk, mem_seeds] at hx
    exact hwf.owned_listed hs hx

theorem passes_succ (step : Traversal → Traversal) (n : Nat) (t : Traversal) :
    passes step (n + 1) t =
      (if t.status = Status.running then t.op_node.toList else []) ++ passes step n (step t) := by
  rw [passes]
  cases hst : t.status <;> cases hc : t.op_node <;> simp

theorem Visits.visits_run {d : Direction} {g : Depsgraph} {s : Nat}
    (hwf : WellFormed g) (hs : s ∈ g.id_nodes)
    (hd : ∀ a ∈ g.operations, ∀ rel ∈ d.links (g.op_mem a), d.follow rel ≠ Target.not_operation)
    (n : Nat) {t : Traversal} {seen : List Nat} (hi : Inv d g s t) (hv : Visits g seen t) :
    Visits g (seen ++ passes (traversal_step d) n t) (run (traversal_step d) n t) := by
  induction n generalizing t seen with
  | zero =>
    rw [passes, List.append_nil]
    exact hv
  | succ n ih =>
    rw [passes_succ, ← List.append_assoc]
    show Visits g _ (run (traversal_step d) n (traversal_step d t))
    by_cases hrun : t.status = Status.running
    · rw [if_pos hrun]
      exact ih (hi.inv_step hwf hs) (hv.visits_step hwf hs hd hi hrun)
    · rw [if_neg hrun, List.append_nil]
      have := ih (hi.inv_step hwf hs) (traversal_step_of_not_running d t hrun ▸ hv)
      exact this

/-! ### The worklist is a stack -/

theorem sched_mono_step (d : Direction) (t : Traversal) {x : Nat} (h : t.graph.sched x) :
    (traversal_step d t).graph.sched x := by
  unfold traversal_step
  split
  · split
    · split
      · exact h
      · exact h
    · next a ha =>
      have h1 : (visit_owner t a).graph.sched x := (visit_owner_sched t a x).mpr h
      dsimp only
      split
      · split
        · split
          · exact (sched_set_scheduled _ _ _).mpr (Or.inr h1)
          · exact h1
        · exact h1
        · exact h1
      · exact (schedule_all_frame d _ (visit_owner t a)).2.2.2.2 x h1
  · exact h

theorem sched_mono_run (d : Direction) (n : Nat) (t : Traversal) {x : Nat}
    (h : t.graph.sched x) : (run (traversal_step d) n t).graph.sched x := by
  induction n generalizing t with
  | zero => exact h
  | succ n ih => exact ih _ (sched_mono_step d t h)

theorem schedule_all_pushes (d : Direction) (rels : List Relation) (t : Traversal) :
    ∃ P, (schedule_all d rels t).queue = P ++ t.queue ∧ ∀ b ∈ P, ¬ t.graph.sched b := by
  induction rels generalizing t with
  | nil => exact ⟨[], rfl, fun _ h => by cases h⟩
  | cons rel rels ih =>
    unfold schedule_all
    split
    · next b hb =>
      split
      · next hs =>
        obtain ⟨P, hP, hPs⟩ :=
          ih { t with queue := b :: t.queue, graph := t.graph.set_scheduled b true }
        refine ⟨P ++ [b], ?_, ?_⟩
        · rw [hP]
          simp
        · intro x hx
          rcases List.mem_append.mp hx with hx | hx
          · exact fun hc => hPs x hx ((sched_set_scheduled _ _ _).mpr (Or.inr hc))
          · rw [List.mem_singleton] at hx
            subst hx
            simp [Depsgraph.sched, hs]
      · exact ih t
    · exact ih t
    · exact ⟨[], rfl, fun _ h => by cases h⟩

theorem step_queue_cases (d : Direction) (t : Traversal) :
    (∃ P, (traversal_step d t).queue = P ++ t.queue ∧ ∀ b ∈ P, ¬ t.graph.sched b) ∨
      ∃ a, t.queue = a :: (traversal_step d t).queue := by
  unfold traversal_step
  split
  · split
    · split
      · exact Or.inl ⟨[], rfl, fun _ h => by cases h⟩
      · next a rest hq => exact Or.inr ⟨a, hq⟩
    · next a ha =>
      left
      dsimp only
      split
      · split
        · split
          · exact ⟨[], visit_owner_queue t a, fun _ h => by cases h⟩
          · exact ⟨[], visit_owner_queue t a, fun _ h => by cases h⟩
        · exact ⟨[], visit_owner_queue t a, fun _ h => by cases h⟩
        · exact ⟨[], visit_owner_queue t a, fun _ h => by cases h⟩
      · obtain ⟨P, hP, hPs⟩ := schedule_all_pushes d
          (d.links ((visit_owner t a).graph.op_mem a)) (visit_owner t a)
        refine ⟨P, ?_, fun b hb hc => hPs b hb ((visit_owner_sched t a b).mpr hc)⟩
        rw [visit_owner_queue] at hP
        exact hP
  · exact Or.inl ⟨[], rfl, fun _ h => by cases h⟩

/-- Once the worklist `q` lies under what was pushed on it, the nodes of `F`
(scheduled, none of them in `q`) have left the worklist before the first
node of `q` does. -/
theorem stack_discipline (d : Direction) (q F : List Nat) (n : Nat) (t : Traversal)
    (hF : ∀ b ∈ F, t.graph.sched b) (hdis : ∀ b ∈ F, b ∉ q)
    (h : (∃ X, t.queue = X ++ q) ∨ ∀ b ∈ F, b ∉ t.queue) :
    (∃ X, (run (traversal_step d) n t).queue = X ++ q) ∨
      ∀ b ∈ F, b ∉ (run (traversal_step d) n t).queue := by
  induction n generalizing t with
  | zero => exact h
  | succ n ih =>
    refine ih (traversal_step d t) (fun b hb => sched_mono_step d t (hF b hb)) ?_
    rcases step_queue_cases d t with ⟨P, hP, hPs⟩ | ⟨a, ha⟩
    · rcases h with ⟨X, hX⟩ | h
      · exact Or.inl ⟨P ++ X, by rw [hP, hX, List.append_assoc]⟩
      · right
        intro b hb hc
        rw [hP] at hc
        rcases List.mem_append.mp hc with hc | hc
        · exact hPs b hc (hF b hb)
        · exact h b hb hc
    · rcases h with ⟨X, hX⟩ | h
      · cases X with
        | nil =>
          right
          intro b hb hc
          apply hdis b hb
          have : q = a :: (traversal_step d t).queue := by
            rw [← ha, hX]
            rfl
          rw [this]
          exact List.mem_cons_of_mem _ hc
        | cons x X =>
          left
          refine ⟨X, ?_⟩
          rw [hX] at ha
          exact (List.cons.inj ha).2.symm
      · right
        intro b hb hc
        exact h b hb (ha ▸ List.mem_cons_of_mem _ hc)


/-! ### The forward query, step by step -/

theorem dependent_visits {g : Depsgraph} {id s : Nat} (hwf : WellFormed g)
    (hs : find_id_node g id = some s) (fuel : Nat) :
    Visits g (passes dependent_step fuel (traversal_begin g s))
      (deg_foreach_dependent_ID g id fuel) := by
  have h1 : dependent_step = traversal_step Direction.forward := funext dependent_step_eq
  rw [(dependent_inv hwf hs fuel).1, h1]
  have := Visits.visits_run hwf (hwf.find hs).1 (forward_never_passes_over g) fuel
    (Inv.inv_begin Direction.forward) (Visits.visits_begin hwf (hwf.find hs).1)
  rwa [List.nil_append] at this

theorem dependent_succ {g : Depsgraph} {id s : Nat} (hs : find_id_node g id = some s)
    (k : Nat) :
    deg_foreach_dependent_ID g id (k + 1) =
      traversal_step Direction.forward (deg_foreach_dependent_ID g id k) := by
  unfold deg_foreach_dependent_ID
  rw [hs, run_dependent_step]
  exact run_succ _ _ _

theorem dependent_add {g : Depsgraph} {id s : Nat} (hs : find_id_node g id = some s)
    (k j : Nat) :
    deg_foreach_dependent_ID g id (k + j) =
      run (traversal_step Direction.forward) j (deg_foreach_dependent_ID g id k) := by
  unfold deg_foreach_dependent_ID
  rw [hs, run_dependent_step]
  exact run_add _ _ _ _


/-! ### The fast path against the plain branching loop -/

theorem no_fast_path_of_not_running (t : Traversal) (h : t.status ≠ Status.running) :
    dependent_step_no_fast_path t = t := by
  unfold dependent_step_no_fast_path
  split
  · next h' => exact absurd h' h
  · rfl

theorem dependent_step_of_not_running (t : Traversal) (h : t.status ≠ Status.running) :
    dependent_step t = t := by
  rw [dependent_step_eq]
  exact traversal_step_of_not_running _ t h

theorem no_fast_path_of_none (t : Traversal) (h : t.op_node = none) :
    dependent_step_no_fast_path t = traversal_step Direction.forward t := by
  unfold dependent_step_no_fast_path traversal_step
  rw [h]

theorem no_fast_path_pass (t : Traversal) {a : Nat} (h1 : t.status = Status.running)
    (h2 : t.op_node = some a) :
    dependent_step_no_fast_path t =
      { schedule_all Direction.forward (Direction.forward.links (t.graph.op_mem a))
          (visit_owner t a) with op_node := none } := by
  unfold dependent_step_no_fast_path
  split
  · split
    · next hc => rw [h2] at hc; cases hc
    · next hc =>
      rw [h2] at hc
      cases hc
      dsimp only
      rw [dependent_schedule_all_eq, visit_owner_op_mem]
      rfl
  · next hne => exact absurd h1 (hne · )

theorem inner_pass_invalid (d : Direction) (t : Traversal) (a : Nat) {rel : Relation}
    (hl : d.links (t.graph.op_mem a) = [rel]) (hf : d.follow rel = Target.invalid) :
    inner_pass d t a = { visit_owner t a with status := Status.undefined } := by
  unfold inner_pass
  dsimp only
  rw [visit_owner_op_mem, hl]
  dsimp only
  rw [hf]

/-- A step with the fast path is one step of the variant, or two: the push of
the only target to the front of the worklist and its removal. -/
theorem fast_path_one_or_two_steps (t : Traversal)
    (h : (dependent_step t).status ≠ Status.undefined) :
    dependent_step t = dependent_step_no_fast_path t ∨
      dependent_step t = dependent_step_no_fast_path (dependent_step_no_fast_path t) := by
  rw [dependent_step_eq] at h ⊢
  by_cases hrun : t.status = Status.running
  · cases hc : t.op_node with
    | none => exact Or.inl (no_fast_path_of_none t hc).symm
    | some a =>
      rw [traversal_step_pass _ t hrun hc] at h ⊢
      rw [no_fast_path_pass t hrun hc]
      by_cases hlen : (Direction.forward.links (t.graph.op_mem a)).length = 1
      · obtain ⟨rel, hl⟩ := List.length_eq_one.mp hlen
        rw [hl]
        cases hf : Direction.forward.follow rel with
        | operation b =>
          by_cases hsb : t.graph.sched b
          · left
            have hs1 : ((visit_owner t a).graph.op_mem b).scheduled = true := by
              rw [visit_owner_op_mem]
              exact hsb
            rw [inner_pass_break _ t a hl hf hsb]
            simp [schedule_all, hf, hs1]
          · right
            have hs1 : ((visit_owner t a).graph.op_mem b).scheduled = false := by
              rw [visit_owner_op_mem]
              simpa [Depsgraph.sched] using hsb
            have hu : dependent_step_no_fast_path
                { visit_owner t a with
                  queue := b :: (visit_owner t a).queue,
                  graph := (visit_owner t a).graph.set_scheduled b true,
                  op_node := none } =
                { visit_owner t a with
                  graph := (visit_owner t a).graph.set_scheduled b true,
                  op_node := some b } := by
              rw [no_fast_path_of_none _ rfl]
              exact traversal_step_pop Direction.forward _
                (show (visit_owner t a).status = Status.running by rw [visit_owner_status, hrun])
                rfl rfl
            rw [inner_pass_chain _ t a hl hf hsb]
            simp only [schedule_all, hf, hs1, if_true]
            exact hu.symm
        | not_operation =>
          exfalso
          simp only [Direction.follow] at hf
          split at hf <;> cases hf
        | invalid =>
          rw [inner_pass_invalid _ t a hl hf] at h
          exact absurd rfl h
      · left
        rw [inner_pass_branch _ t a hlen]
  · left
    rw [traversal_step_of_not_running _ t hrun, no_fast_path_of_not_running t hrun]

theorem run_no_fast_path_of_not_running (n : Nat) (t : Traversal)
    (h : t.status ≠ Status.running) : run dependent_step_no_fast_path n t = t := by
  induction n with
  | zero => rfl
  | succ n ih =>
    show run dependent_step_no_fast_path n (dependent_step_no_fast_path t) = t
    rw [no_fast_path_of_not_running t h, ih]

theorem run_fast_path_simulated (t : Traversal) (k : Nat)
    (h : ∀ i, (run dependent_step i t).status ≠ Status.undefined) :
    ∃ k', k' ≤ 2 * k ∧ run dependent_step_no_fast_path k' t = run dependent_step k t := by
  induction k with
  | zero => exact ⟨0, le_rfl, rfl⟩
  | succ k ih =>
    obtain ⟨k', hk', heq⟩ := ih
    have hst := h (k + 1)
    rw [run_succ] at hst ⊢
    rcases fast_path_one_or_two_steps _ hst with h1 | h1
    · exact ⟨k' + 1, by omega, by rw [run_succ, heq, h1]⟩
    · exact ⟨k' + 2, by omega, by rw [run_succ, run_succ, heq, h1]⟩


theorem dependent_stable {g : Depsgraph} {id s : Nat} (hwf : WellFormed g)
    (hs : find_id_node g id = some s) (fuel : Nat)
    (hfuel : work_left (traversal_begin g s) < fuel) :
    deg_foreach_dependent_ID g id fuel =
      deg_foreach_dependent_ID g id (work_left (traversal_begin g s) + 1) := by
  have h1 := dependent_returns hwf hs (work_left (traversal_begin g s) + 1) (Nat.lt_succ_self _)
  rw [(dependent_inv hwf hs _).1] at h1 ⊢
  rw [(dependent_inv hwf hs _).1]
  exact run_stable _ _ _ _ hfuel h1

theorem no_fast_path_same_result {g : Depsgraph} {id s : Nat} (hwf : WellFormed g)
    (hs : find_id_node g id = some s) (fuel fuel' : Nat)
    (hfuel : work_left (traversal_begin g s) < fuel)
    (hfuel' : 2 * (work_left (traversal_begin g s) + 1) ≤ fuel') :
    deg_foreach_dependent_ID_no_fast_path g id fuel' = deg_foreach_dependent_ID g id fuel := by
  have hret := dependent_returns hwf hs (work_left (traversal_begin g s) + 1)
    (Nat.lt_succ_self _)
  rw [dependent_stable hwf hs fuel hfuel]
  have hdef : ∀ i, (run dependent_step i (traversal_begin g s)).status ≠ Status.undefined := by
    intro i
    have := (dependent_inv hwf hs i).2.status_defined
    unfold deg_foreach_dependent_ID at this
    rwa [hs] at this
  obtain ⟨k', hk', heq⟩ := run_fast_path_simulated (traversal_begin g s)
    (work_left (traversal_begin g s) + 1) hdef
  have hF : deg_foreach_dependent_ID g id (work_left (traversal_begin g s) + 1) =
      run dependent_step (work_left (traversal_begin g s) + 1) (traversal_begin g s) := by
    unfold deg_foreach_dependent_ID
    rw [hs]
  rw [hF] at hret ⊢
  unfold deg_foreach_dependent_ID_no_fast_path
  rw [hs]
  dsimp only
  obtain ⟨j, rfl⟩ := Nat.exists_eq_add_of_le (hk'.trans hfuel')
  rw [run_add, heq, run_no_fast_path_of_not_running j _ (by rw [hret]; simp)]


/-! ## Further properties of the forward query -/

/-- C11 as stated fails for the start entity: on the two-entity cycle
A.op → B.op → A.op, queried from A, the traversal returns, a path of two
outgoing relations leads from the operation of A back to the operation of A,
and the identity 10 of A is not reported. -/
theorem start_on_cycle_reachable_not_reported :
    WellFormed cycle ∧ find_id_node cycle 10 = some 0 ∧ 0 ∈ cycle.id_nodes ∧
    (cycle.id_mem 0).id_orig = 10 ∧
    (deg_foreach_dependent_ID cycle 10 5).status = Status.returned ∧
    ¬ (10 ∈ (deg_foreach_dependent_ID cycle 10 5).calls ↔
      ∃ a b, Owned cycle 0 a ∧ Owned cycle 0 b ∧ Relation.TransGen (out_edge cycle) a b) := by
  refine ⟨by decide, by decide, by decide, by decide, by decide, fun h => ?_⟩
  have hcall : 10 ∉ (deg_foreach_dependent_ID cycle 10 5).calls := by decide
  refine hcall (h.mpr ⟨0, 0, ⟨0, by decide, by decide⟩, ⟨0, by decide, by decide⟩, ?_⟩)
  have e01 : out_edge cycle 0 1 := ⟨⟨op 0, op 1⟩, by decide, rfl⟩
  have e10 : out_edge cycle 1 0 := ⟨⟨op 1, op 0⟩, by decide, rfl⟩
  exact Relation.TransGen.tail (Relation.TransGen.single e01) e10

/-- C11, amended: for a well-formed graph, a start entity found in it and
enough fuel, an entity node of the graph has its identity reported by
`deg_foreach_dependent_ID` iff it is not the start node and a path of one or
more outgoing relations leads from an operation owned by the start node to an
operation owned by it. -/
theorem dependent_reports_iff_other_and_reachable (g : Depsgraph) (id s : Nat)
    (hwf : WellFormed g) (hs : find_id_node g id = some s) (fuel : Nat)
    (hfuel : work_left (traversal_begin g s) < fuel) (n : Nat) (hn : n ∈ g.id_nodes) :
    (g.id_mem n).id_orig ∈ (deg_foreach_dependent_ID g id fuel).calls ↔
      n ≠ s ∧ ∃ a b, Owned g s a ∧ Owned g n b ∧ Relation.TransGen (out_edge g) a b := by
  have hret := dependent_returns hwf hs fuel hfuel
  rw [(dependent_inv hwf hs fuel).2.calls_iff hwf (hwf.find hs).1 hret, edge_forward_eq]
  constructor
  · rintro ⟨m, hm, hid, hne, hp⟩
    have := hwf.ids_distinct hm hn hid
    subst this
    exact ⟨hne, hp⟩
  · rintro ⟨hne, hp⟩
    exact ⟨n, hn, rfl, hne, hp⟩

/-- C11 amended, on the two-entity cycle queried from A: B is reported, A is
not. -/
theorem dependent_reports_iff_other_and_reachable_witness :
    WellFormed cycle ∧ find_id_node cycle 10 = some 0 ∧
    work_left (traversal_begin cycle 0) < 5 ∧
    (deg_foreach_dependent_ID cycle 10 5).calls = [11] ∧
    ((cycle.id_mem 1).id_orig ∈ (deg_foreach_dependent_ID cycle 10 5).calls ↔
      1 ≠ 0 ∧ ∃ a b, Owned cycle 0 a ∧ Owned cycle 1 b ∧
        Relation.TransGen (out_edge cycle) a b) :=
  ⟨by decide, by decide, by decide, by decide,
    dependent_reports_iff_other_and_reachable cycle 10 0 (by decide) (by decide) 5 (by decide)
      1 (by decide)⟩

/-- C12: for a well-formed graph in which every incoming relation of a listed
operation comes from an operation node, and for every start identity, after
any number of steps `deg_foreach_ancestor_ID` has passed to the callback the
same sequence of identities as `deg_foreach_dependent_ID` on the reversed
graph, stands at the same point (running or returned), and its graph state is
the reverse of the other one. -/
theorem ancestor_is_dependent_of_reversed (g : Depsgraph) (id : Nat) (hwf : WellFormed g)
    (hops : ∀ a ∈ g.operations, ∀ rel ∈ (g.op_mem a).inlinks,
      rel.«from».cls = NodeClass.OPERATION)
    (fuel : Nat) :
    (deg_foreach_ancestor_ID g id fuel).calls =
      (deg_foreach_dependent_ID (reversed g) id fuel).calls ∧
    (deg_foreach_ancestor_ID g id fuel).status =
      (deg_foreach_dependent_ID (reversed g) id fuel).status ∧
    reversed (deg_foreach_ancestor_ID g id fuel).graph =
      (deg_foreach_dependent_ID (reversed g) id fuel).graph := by
  have hfind : find_id_node (reversed g) id = find_id_node g id := rfl
  unfold deg_foreach_ancestor_ID deg_foreach_dependent_ID
  rw [hfind]
  cases hs : find_id_node g id with
  | none => exact ⟨rfl, rfl, rfl⟩
  | some s =>
    dsimp only
    rw [run_dependent_step, run_ancestor_step, traversal_begin_reversed,
      run_mirror hwf (hwf.find hs).1 hops fuel _ (Inv.inv_begin Direction.backward)]
    exact ⟨rfl, rfl, rfl⟩

/-- C12 on the chain A.op → B.op → C.op queried from C. -/
theorem ancestor_is_dependent_of_reversed_witness :
    WellFormed chain ∧
    (∀ a ∈ chain.operations, ∀ rel ∈ (chain.op_mem a).inlinks,
      rel.«from».cls = NodeClass.OPERATION) ∧
    ((reversed chain).op_mem 2).outlinks = [⟨op 2, op 1⟩] ∧
    (deg_foreach_ancestor_ID chain 12 9).calls = [11, 10] ∧
    (deg_foreach_dependent_ID (reversed chain) 12 9).calls = [11, 10] ∧
    ((deg_foreach_ancestor_ID chain 12 9).calls =
      (deg_foreach_dependent_ID (reversed chain) 12 9).calls ∧
    (deg_foreach_ancestor_ID chain 12 9).status =
      (deg_foreach_dependent_ID (reversed chain) 12 9).status ∧
    reversed (deg_foreach_ancestor_ID chain 12 9).graph =
      (deg_foreach_dependent_ID (reversed chain) 12 9).graph) :=
  ⟨by decide, by decide, by decide, by decide, by decide,
    ancestor_is_dependent_of_reversed chain 12 (by decide) (by decide) 9⟩

/-- C13: for a well-formed graph and a start entity found in it, with enough
fuel for each, `deg_foreach_dependent_ID` and the variant without the
single-relation fast path both return, with the same sequence of callback
calls and the same graph state (the same markers on every node). -/
theorem fast_path_is_pure_optimisation (g : Depsgraph) (id s : Nat) (hwf : WellFormed g)
    (hs : find_id_node g id = some s) (fuel fuel' : Nat)
    (hfuel : work_left (traversal_begin g s) < fuel)
    (hfuel' : 2 * (work_left (traversal_begin g s) + 1) ≤ fuel') :
    (deg_foreach_dependent_ID g id fuel).status = Status.returned ∧
    (deg_foreach_dependent_ID_no_fast_path g id fuel').status = Status.returned ∧
    (deg_foreach_dependent_ID_no_fast_path g id fuel').calls =
      (deg_foreach_dependent_ID g id fuel).calls ∧
    (deg_foreach_dependent_ID_no_fast_path g id fuel').graph =
      (deg_foreach_dependent_ID g id fuel).graph := by
  have h := no_fast_path_same_result hwf hs fuel fuel' hfuel hfuel'
  have hret := dependent_returns hwf hs fuel hfuel
  rw [h]
  exact ⟨hret, hret, rfl, rfl⟩

/-- C13 on the chain A.op → B.op → C.op queried from A, where the fast path is
taken twice: the call returns after five steps with it and after seven
without, with the same log. -/
theorem fast_path_is_pure_optimisation_witness :
    WellFormed chain ∧ find_id_node chain 10 = some 0 ∧
    work_left (traversal_begin chain 0) < 7 ∧
    2 * (work_left (traversal_begin chain 0) + 1) ≤ 14 ∧
    (deg_foreach_dependent_ID chain 10 4).status = Status.running ∧
    (deg_foreach_dependent_ID chain 10 5).status = Status.returned ∧
    (deg_foreach_dependent_ID_no_fast_path chain 10 6).status = Status.running ∧
    (deg_foreach_dependent_ID_no_fast_path chain 10 7).status = Status.returned ∧
    (deg_foreach_dependent_ID_no_fast_path chain 10 14).calls = [11, 12] ∧
    ((deg_foreach_dependent_ID chain 10 7).status = Status.returned ∧
    (deg_foreach_dependent_ID_no_fast_path chain 10 14).status = Status.returned ∧
    (deg_foreach_dependent_ID_no_fast_path chain 10 14).calls =
      (deg_foreach_dependent_ID chain 10 7).calls ∧
    (deg_foreach_dependent_ID_no_fast_path chain 10 14).graph =
      (deg_foreach_dependent_ID chain 10 7).graph) :=
  ⟨by decide, by decide, by decide, by decide, by decide, by decide, by decide, by decide,
    by decide,
    fast_path_is_pure_optimisation chain 10 0 (by decide) (by decide) 7 14 (by decide)
      (by decide)⟩

/-- C14: for a well-formed graph and a start entity found in it, after any
number of steps of `deg_foreach_dependent_ID`: the operation nodes visited by
the passes of the inner loop so far are pairwise distinct, so their number is
at most the number of operations of the graph; the worklist holds no operation
twice; and the operation about to be visited is scheduled, was not visited
before and is not in the worklist. -/
theorem each_operation_visited_once (g : Depsgraph) (id s : Nat) (hwf : WellFormed g)
    (hs : find_id_node g id = some s) (fuel : Nat) :
    (passes dependent_step fuel (traversal_begin g s)).Nodup ∧
    (passes dependent_step fuel (traversal_begin g s)).length ≤ g.operations.length ∧
    (deg_foreach_dependent_ID g id fuel).queue.Nodup ∧
    ∀ a, (deg_foreach_dependent_ID g id fuel).op_node = some a →
      ((deg_foreach_dependent_ID g id fuel).graph.op_mem a).scheduled = true ∧
      a ∉ passes dependent_step fuel (traversal_begin g s) ∧
      a ∉ (deg_foreach_dependent_ID g id fuel).queue := by
  have hv := dependent_visits hwf hs fuel
  have hnd := hv.nodup
  unfold known at hnd
  rw [List.nodup_append] at hnd
  obtain ⟨h1, h2, h3⟩ := hnd
  rw [List.nodup_append] at h2
  refine ⟨h1, ?_, h2.2.1, fun a ha => ⟨?_, ?_, ?_⟩⟩
  · have hsub : passes dependent_step fuel (traversal_begin g s) ⊆ g.operations := by
      intro x hx
      exact hv.listed x (List.mem_append_left _ hx)
    exact (List.Nodup.subperm h1 hsub).length_le
  · exact hv.sched a (by simp [known, ha])
  · intro hc
    exact h3 hc (by simp [ha]) 
  · intro hc
    exact h2.2.2 (by simp [ha]) hc

/-- C14 on the diamond queried from A: the passes visit A.op, C.op, D.op, B.op,
each once; after four steps A.op and C.op have been visited and D.op, reached
by chain-following, is about to be. -/
theorem each_operation_visited_once_witness :
    WellFormed diamond ∧ find_id_node diamond 10 = some 0 ∧
    passes dependent_step 12 (traversal_begin diamond 0) = [0, 2, 3, 1] ∧
    passes dependent_step 4 (traversal_begin diamond 0) = [0, 2] ∧
    (deg_foreach_dependent_ID diamond 10 4).op_node = some 3 ∧
    (deg_foreach_dependent_ID diamond 10 4).queue = [1] ∧
    ((passes dependent_step 4 (traversal_begin diamond 0)).Nodup ∧
    (passes dependent_step 4 (traversal_begin diamond 0)).length ≤ diamond.operations.length ∧
    (deg_foreach_dependent_ID diamond 10 4).queue.Nodup ∧
    ∀ a, (deg_foreach_dependent_ID diamond 10 4).op_node = some a →
      ((deg_foreach_dependent_ID diamond 10 4).graph.op_mem a).scheduled = true ∧
      a ∉ passes dependent_step 4 (traversal_begin diamond 0) ∧
      a ∉ (deg_foreach_dependent_ID diamond 10 4).queue) :=
  ⟨by decide, by decide, by decide, by decide, by decide, by decide,
    each_operation_visited_once diamond 10 0 (by decide) (by decide) 4⟩

/-- C15: for a well-formed graph, a start entity found in it and enough fuel,
in the graph state that `deg_foreach_dependent_ID` returns with, whatever the
markers were before the call: a listed operation node is scheduled iff it is
owned by the start node or reached from an operation owned by the start node
by one or more outgoing relations; a listed entity node is marked visited iff
it is the start node or its identity is in the log of this call. -/
theorem dependent_final_markers (g : Depsgraph) (id s : Nat)
    (hwf : WellFormed g) (hs : find_id_node g id = some s) (fuel : Nat)
    (hfuel : work_left (traversal_begin g s) < fuel) :
    (deg_foreach_dependent_ID g id fuel).status = Status.returned ∧
    (∀ a ∈ g.operations,
      ((deg_foreach_dependent_ID g id fuel).graph.op_mem a).scheduled = true ↔
        Owned g s a ∨ ∃ a0, Owned g s a0 ∧ Relation.TransGen (out_edge g) a0 a) ∧
    (∀ n ∈ g.id_nodes,
      ((deg_foreach_dependent_ID g id fuel).graph.id_mem n).custom_flags &&& DEG_NODE_VISITED ≠ 0
        ↔ n = s ∨ (g.id_mem n).id_orig ∈ (deg_foreach_dependent_ID g id fuel).calls) := by
  have hret := dependent_returns hwf hs fuel hfuel
  have hi := (dependent_inv hwf hs fuel).2
  have hsn := (hwf.find hs).1
  refine ⟨hret, fun a ha => ?_, fun n hn => ?_⟩
  · rw [← edge_forward_eq]
    constructor
    · intro hsa
      obtain ⟨a0, h0, hp⟩ := hi.sched_reach a ha hsa
      rcases Relation.reflTransGen_iff_eq_or_transGen.mp hp with heq | htr
      · exact Or.inl (heq ▸ h0)
      · exact Or.inr ⟨a0, h0, htr⟩
    · rintro (h0 | ⟨a0, h0, hp⟩)
      · exact hi.seeds_sched a h0
      · exact hi.reach_sched hwf hsn hret ⟨a0, h0, hp.to_reflTransGen⟩
  · constructor
    · intro hv
      exact hi.visited_calls n hn hv
    · rintro (rfl | hc)
      · exact hi.start_visited
      · obtain ⟨m, hm, hid, hv⟩ := hi.calls_visited _ hc
        have := hwf.ids_distinct hm hn hid
        subst this
        exact hv

/-- C15 on the chain queried from C, where B.op is found scheduled before the
call: afterwards C.op is the only scheduled operation and nothing is logged. -/
theorem dependent_final_markers_witness :
    WellFormed chain ∧ find_id_node chain 12 = some 2 ∧
    work_left (traversal_begin chain 2) < 9 ∧
    (chain.op_mem 1).scheduled = true ∧
    (deg_foreach_dependent_ID chain 12 9).calls = [] ∧
    ((deg_foreach_dependent_ID chain 12 9).graph.op_mem 1).scheduled = false ∧
    ((deg_foreach_dependent_ID chain 12 9).graph.op_mem 2).scheduled = true ∧
    ((deg_foreach_dependent_ID chain 12 9).status = Status.returned ∧
    (∀ a ∈ chain.operations,
      ((deg_foreach_dependent_ID chain 12 9).graph.op_mem a).scheduled = true ↔
        Owned chain 2 a ∨
          ∃ a0, Owned chain 2 a0 ∧ Relation.TransGen (out_edge chain) a0 a) ∧
    (∀ n ∈ chain.id_nodes,
      ((deg_foreach_dependent_ID chain 12 9).graph.id_mem n).custom_flags
          &&& DEG_NODE_VISITED ≠ 0
        ↔ n = 2 ∨ (chain.id_mem n).id_orig ∈ (deg_foreach_dependent_ID chain 12 9).calls)) :=
  ⟨by decide, by decide, by decide, by decide, by decide, by decide, by decide,
    dependent_final_markers chain 12 2 (by decide) (by decide) 9 (by decide)⟩

/-- C16: in a run of `deg_foreach_dependent_ID` on a well-formed graph, let the
state after `k` steps be at the head of the inner loop with an operation `a`
that has zero or more than one outgoing relation, and let `fresh` be the
targets of these relations that are not scheduled in that state, each once,
in the order of their first occurrence in `outlinks`. Then the pass leaves
the inner loop with the worklist `fresh` reversed followed by the worklist of
before; the next step removes the last element of `fresh`; and at every later
point, if some node of the worklist of before has left the worklist, so has
every node of `fresh`. -/
theorem branching_step_worklist (g : Depsgraph) (id s : Nat) (hwf : WellFormed g)
    (hs : find_id_node g id = some s) (k a : Nat)
    (hrun : (deg_foreach_dependent_ID g id k).status = Status.running)
    (ha : (deg_foreach_dependent_ID g id k).op_node = some a)
    (hlen : (g.op_mem a).outlinks.length ≠ 1) :
    (deg_foreach_dependent_ID g id (k + 1)).queue =
      (first_occurrences (((g.op_mem a).outlinks.map (fun rel => rel.«to».addr)).filter
        (fun b => ((deg_foreach_dependent_ID g id k).graph.op_mem b).scheduled = false))).reverse
        ++ (deg_foreach_dependent_ID g id k).queue ∧
    (deg_foreach_dependent_ID g id (k + 1)).op_node = none ∧
    (∀ b, (first_occurrences (((g.op_mem a).outlinks.map (fun rel => rel.«to».addr)).filter
        (fun b => ((deg_foreach_dependent_ID g id k).graph.op_mem b).scheduled = false))).getLast?
          = some b →
      (deg_foreach_dependent_ID g id (k + 2)).op_node = some b) ∧
    (∀ j, ∀ r ∈ (deg_foreach_dependent_ID g id k).queue,
      r ∉ (deg_foreach_dependent_ID g id (k + 1 + j)).queue →
      ∀ b ∈ first_occurrences (((g.op_mem a).outlinks.map (fun rel => rel.«to».addr)).filter
        (fun b => ((deg_foreach_dependent_ID g id k).graph.op_mem b).scheduled = false)),
        b ∉ (deg_foreach_dependent_ID g id (k + 1 + j)).queue) := by
  have hi := (dependent_inv hwf hs k).2
  have hv := dependent_visits hwf hs k
  have hsn := (hwf.find hs).1
  have hla : a ∈ g.operations := hwf.reach_listed Direction.forward hsn (hi.cur_reach a ha)
  have hlinks : Direction.forward.links ((deg_foreach_dependent_ID g id k).graph.op_mem a) =
      (g.op_mem a).outlinks := hi.topo.op_outlinks a
  have hlen' : (Direction.forward.links
      ((deg_foreach_dependent_ID g id k).graph.op_mem a)).length ≠ 1 := by rwa [hlinks]
  have hvalid : ∀ rel ∈ (g.op_mem a).outlinks,
      Direction.forward.follow rel ≠ Target.invalid :=
    fun rel hr => hwf.follow_valid Direction.forward hla hr
  have hstep : deg_foreach_dependent_ID g id (k + 1) =
      { schedule_all Direction.forward (g.op_mem a).outlinks
          (visit_owner (deg_foreach_dependent_ID g id k) a) with op_node := none } := by
    rw [dependent_succ hs, traversal_step_pass _ _ hrun ha, inner_pass_branch _ _ _ hlen', hlinks]
  have hfresh : fresh_targets Direction.forward
      (visit_owner (deg_foreach_dependent_ID g id k) a).graph (g.op_mem a).outlinks =
      first_occurrences (((g.op_mem a).outlinks.map (fun rel => rel.«to».addr)).filter
        (fun b => ((deg_foreach_dependent_ID g id k).graph.op_mem b).scheduled = false)) := by
    unfold fresh_targets
    rw [visit_owner_op_mem, targets_forward _ (fun rel hr => (hwf.2.2.1 a hla rel hr).1)]
  have hq : (deg_foreach_dependent_ID g id (k + 1)).queue =
      (first_occurrences (((g.op_mem a).outlinks.map (fun rel => rel.«to».addr)).filter
        (fun b => ((deg_foreach_dependent_ID g id k).graph.op_mem b).scheduled = false))).reverse
        ++ (deg_foreach_dependent_ID g id k).queue := by
    rw [hstep]
    show (schedule_all Direction.forward (g.op_mem a).outlinks
      (visit_owner (deg_foreach_dependent_ID g id k) a)).queue = _
    rw [schedule_all_queue _ _ _ hvalid, hfresh, visit_owner_queue]
  obtain ⟨p1, p2, -⟩ := schedule_all_spec Direction.forward (g.op_mem a).outlinks
    (visit_owner (deg_foreach_dependent_ID g id k) a) hvalid
  have hrun1 : (deg_foreach_dependent_ID g id (k + 1)).status = Status.running := by
    rw [hstep]
    show (schedule_all Direction.forward (g.op_mem a).outlinks
      (visit_owner (deg_foreach_dependent_ID g id k) a)).status = _
    rw [p1, visit_owner_status, hrun]
  have hnone : (deg_foreach_dependent_ID g id (k + 1)).op_node = none := by
    rw [hstep]
  refine ⟨hq, hnone, fun b hb => ?_, fun j r hr hrj b hb => ?_⟩
  · rw [List.getLast?_eq_head?_reverse] at hb
    rw [dependent_succ hs (k + 1)]
    generalize first_occurrences (((g.op_mem a).outlinks.map (fun rel => rel.«to».addr)).filter
        (fun b => ((deg_foreach_dependent_ID g id k).graph.op_mem b).scheduled = false)) = F
      at hq hb
    cases hF : F.reverse with
    | nil => rw [hF] at hb; cases hb
    | cons x rest =>
      rw [hF] at hb hq
      cases hb
      rw [traversal_step_pop _ _ hrun1 hnone hq]
  · have hmem : ∀ x ∈ first_occurrences
        (((g.op_mem a).outlinks.map (fun rel => rel.«to».addr)).filter
        (fun b => ((deg_foreach_dependent_ID g id k).graph.op_mem b).scheduled = false)),
        (∃ rel ∈ (g.op_mem a).outlinks, Direction.forward.follow rel = Target.operation x) ∧
          ¬ (deg_foreach_dependent_ID g id k).graph.sched x := by
      intro x hx
      rw [← hfresh, mem_fresh_targets, visit_owner_sched] at hx
      exact hx
    have hsd := stack_discipline Direction.forward (deg_foreach_dependent_ID g id k).queue
      (first_occurrences (((g.op_mem a).outlinks.map (fun rel => rel.«to».addr)).filter
        (fun b => ((deg_foreach_dependent_ID g id k).graph.op_mem b).scheduled = false)))
      j (deg_foreach_dependent_ID g id (k + 1))
      (by
        intro x hx
        rw [hstep]
        exact (p2 x).mpr (Or.inr (hmem x hx).1))
      (by
        intro x hx hc
        exact (hmem x hx).2 (hv.sched x (by simp [known, hc])))
      (Or.inl ⟨_, hq⟩)
    rw [dependent_add hs (k + 1) j] at hrj ⊢
    rcases hsd with ⟨X, hX⟩ | hsd
    · exact absurd (hX ▸ List.mem_append_right X hr) hrj
    · exact hsd b hb

/-- C16 on the graph `fan` queried from A: the pass at the operation 0, whose
outgoing relations target 2, 3, 2, finds the worklist [1] and leaves [3, 2, 1];
the next step removes 3. -/
theorem branching_step_worklist_witness :
    WellFormed fan ∧ find_id_node fan 10 = some 0 ∧
    (deg_foreach_dependent_ID fan 10 1).status = Status.running ∧
    (deg_foreach_dependent_ID fan 10 1).op_node = some 0 ∧
    (fan.op_mem 0).outlinks.length ≠ 1 ∧
    (fan.op_mem 0).outlinks.map (fun rel => rel.«to».addr) = [2, 3, 2] ∧
    (deg_foreach_dependent_ID fan 10 1).queue = [1] ∧
    (deg_foreach_dependent_ID fan 10 2).queue = [3, 2, 1] ∧
    (deg_foreach_dependent_ID fan 10 3).op_node = some 3 ∧
    (deg_foreach_dependent_ID fan 10 (1 + 1)).queue =
      (first_occurrences (((fan.op_mem 0).outlinks.map (fun rel => rel.«to».addr)).filter
        (fun b => ((deg_foreach_dependent_ID fan 10 1).graph.op_mem b).scheduled = false))).reverse
        ++ (deg_foreach_dependent_ID fan 10 1).queue :=
  ⟨by decide, by decide, by decide, by decide, by decide, by decide, by decide, by decide,
    by decide,
    (branching_step_worklist fan 10 0 (by decide) (by decide) 1 0 (by decide) (by decide)
      (by decide)).1⟩


end DEG
